import Mathlib

/-!
Verification of the cornerstone-octree engine (distributed octree,
domain decomposition and halo discovery for N-body/SPH simulations).

The development shallowly embeds the engine's data model and operations:
SFC (Morton) keys are natural numbers below `8 ^ L` for a maximum tree
level `L`, cornerstone trees are sorted key lists with a sentinel,
particle buffers are lists, and the array layout is a structure of a
node list plus an offset table.  Operations present in the repository
sources (array layout, focus-count exchange) are translated directly;
operations whose implementation file is absent from the source snapshot
(tree build/rebalance, box overlap, halo radii, particle exchange) are
modelled from the specification and validated against the repository's
unit tests, which pin their concrete behaviour.
-/

namespace Cstone

/-! ## SFC keys and node ranges

A key has `3 * L` significant bits, grouped in octal digits; `nodeRange L l`
is the key span covered by a node at subdivision level `l`, and
`nodeRange L 0 = 8 ^ L` is one past the maximum representable key. -/

/-- Key span covered by one octree node at level `l`, for maximum level `L`:
`nodeRange(l) = 8 ^ (L - l)`. -/
def nodeRange (L l : Nat) : Nat := 8 ^ (L - l)

/-- Base-8 logarithm with explicit fuel, so that it reduces inside the
kernel; the fuel argument strictly bounds the recursion depth. -/
def log8Aux : Nat → Nat → Nat
  | 0, _ => 0
  | fuel + 1, r => if r < 8 then 0 else log8Aux fuel (r / 8) + 1

/-- Base-8 logarithm, total with `log8 r = 0` for `r < 8`. -/
def log8 (r : Nat) : Nat := log8Aux r r

theorem log8Aux_zero (r : Nat) : log8Aux 0 r = 0 := rfl

theorem log8Aux_succ (n r : Nat) :
    log8Aux (n + 1) r = if r < 8 then 0 else log8Aux n (r / 8) + 1 := rfl

theorem log8Aux_congr : ∀ (f1 f2 r : Nat), r ≤ f1 → r ≤ f2 →
    log8Aux f1 r = log8Aux f2 r := by
  intro f1
  induction f1 with
  | zero =>
      intro f2 r h1 _
      interval_cases r
      cases f2 with
      | zero => rfl
      | succ k => simp [log8Aux_succ, log8Aux_zero]
  | succ f ih =>
      intro f2 r h1 h2
      by_cases hr : r < 8
      · cases f2 with
        | zero =>
            interval_cases r
            simp [log8Aux_succ, log8Aux_zero]
        | succ k => simp [log8Aux_succ, hr]
      · have hr8 : 8 ≤ r := Nat.le_of_not_lt hr
        cases f2 with
        | zero => omega
        | succ k =>
            have hdiv : r / 8 < r := Nat.div_lt_self (by omega) (by omega)
            rw [log8Aux_succ, log8Aux_succ, if_neg hr, if_neg hr,
              ih k (r / 8) (by omega) (by omega)]

/-- The base-8 logarithm of a power of eight is its exponent. -/
theorem log8_pow (k : Nat) : log8 (8 ^ k) = k := by
  induction k with
  | zero => rfl
  | succ k ih =>
      have hge : 8 ≤ 8 ^ (k + 1) := by
        calc 8 = 8 ^ 1 := (pow_one 8).symm
        _ ≤ 8 ^ (k + 1) := Nat.pow_le_pow_right (by omega) (by omega)
      obtain ⟨m, hm⟩ : ∃ m, 8 ^ (k + 1) = m + 1 := ⟨8 ^ (k + 1) - 1, by omega⟩
      have hdivpow : 8 ^ (k + 1) / 8 = 8 ^ k := by
        rw [Nat.pow_succ]; omega
      have hle : 8 ^ k ≤ m := by
        have h2 : 8 ^ k < 8 ^ (k + 1) := Nat.pow_lt_pow_succ (by omega)
        omega
      rw [log8, hm, log8Aux_succ, if_neg (by omega : ¬ m + 1 < 8), ← hm,
        hdivpow, log8Aux_congr m (8 ^ k) (8 ^ k) hle le_rfl, ← log8, ih]

/-- Subdivision level of a node whose key span is `r`; defined on powers of
eight as `L - log8 r` (calling it elsewhere is a caller contract error). -/
def treeLevel (L r : Nat) : Nat := L - log8 r

/-- Octal digit of `code` at level `l` counted from the root, i.e. the child
octant chosen at that level: `(code >> (3 * (L - l))) & 7`. -/
def octalDigit (L : Nat) (code : Nat) (l : Nat) : Nat := code / 8 ^ (L - l) % 8

/-- First index at which `x` could be inserted into `l` keeping it sorted:
the position of the first element that is not less than `x`.  This embeds
`std::lower_bound`, whose contract requires a sorted range; on sorted input
the binary search returns exactly this index. -/
def lowerBound (l : List Nat) (x : Nat) : Nat :=
  match l with
  | [] => 0
  | a :: rest => if a < x then lowerBound rest x + 1 else 0

/-! ## Array layout (`ArrayLayout`, `computeLayout`)

Embeds the layout component: node indices into the global cornerstone tree
are naturals, `IndexRanges` is a list of half-open index ranges, and the
`global2local_` hash map becomes a last-write-wins index lookup over the
node list, mirroring the constructor loop `global2local_[nodeList[i]] = i`.
A failed `std::unordered_map::at` lookup (`std::out_of_range`) is modelled
as `none`. -/

/-- Half-open ranges of indices, as stored by `IndexRanges`. -/
abbrev IndexRanges := List (Nat × Nat)

/-- Last-write-wins lookup of a global node index in the node list, embedding
the `global2local_` map filled by `for i: global2local_[nodeList[i]] = i`. -/
def global2local (nodeList : List Nat) (g : Nat) : Option Nat :=
  (List.range nodeList.length).foldl
    (fun acc i => if nodeList.getD i 0 = g then some i else acc) none

/-- Particle-buffer layout of one rank: sorted node list and per-node offsets,
plus the ranges marked local by `addLocalRange`. -/
structure ArrayLayout where
  nodeList : List Nat
  offsets : List Nat
  ranges : IndexRanges

/-- Array offset of a global node: `offsets_[global2local_.at(g)]`; the map
lookup throws for an absent node, modelled by `none`. -/
def ArrayLayout.nodePosition (a : ArrayLayout) (g : Nat) : Option Nat :=
  (global2local a.nodeList g).map fun localIndex => a.offsets.getD localIndex 0

/-- Particle count of a global node:
`offsets_[li + 1] - offsets_[li]` for `li = global2local_.at(g)`. -/
def ArrayLayout.nodeCount (a : ArrayLayout) (g : Nat) : Option Nat :=
  (global2local a.nodeList g).map fun localIndex =>
    a.offsets.getD (localIndex + 1) 0 - a.offsets.getD localIndex 0

/-- Total size of the layout: `offsets_[nodeList_.size()]`. -/
def ArrayLayout.totalSize (a : ArrayLayout) : Nat :=
  a.offsets.getD a.nodeList.length 0

/-- Mark the nodes `[lowerG, upperG)` as local: looks up the lower index in
the map (which throws, i.e. `none`, when absent) and appends the offset
range `[offsets_[li], offsets_[li + nNodes])`. -/
def ArrayLayout.addLocalRange (a : ArrayLayout) (lowerG upperG : Nat) :
    Option ArrayLayout :=
  (global2local a.nodeList lowerG).map fun localIndex =>
    { a with ranges :=
        a.ranges ++ [(a.offsets.getD localIndex 0,
                      a.offsets.getD (localIndex + (upperG - lowerG)) 0)] }

/-- Keys of the half-open range `[lo, hi)` in ascending order. -/
def rangeList (lo hi : Nat) : List Nat := (List.range (hi - lo)).map (lo + ·)

/-- Concatenation of the index ranges assigned to this rank, embedding the
loop that pushes `i` for `i` in `[rangeStart, rangeEnd)` of every range. -/
def flattenRanges (localNodes : IndexRanges) : List Nat :=
  localNodes.flatMap fun r => rangeList r.1 r.2

/-- Exclusive prefix scan with the total appended, embedding the offset
construction loop of `computeLayout`. -/
def exclusiveScan (counts : List Nat) : List Nat :=
  (List.range (counts.length + 1)).map fun i => ((counts.take i).foldl (· + ·) 0)

/-- Array layout of the executing rank from its assigned node ranges, its
incoming halo nodes and the global node counts: halo and local node indices
are concatenated and sorted (the source does not deduplicate), counts are
gathered per listed node, offsets are the exclusive scan of those counts,
and every assigned range is registered via `addLocalRange`. -/
def computeLayout (localNodes : IndexRanges) (haloNodes : List Nat)
    (globalNodeCounts : List Nat) : Option ArrayLayout :=
  let nodeList := (haloNodes ++ flattenRanges localNodes).insertionSort (· ≤ ·)
  let nodeCounts := nodeList.map fun g => globalNodeCounts.getD g 0
  let offsets := exclusiveScan nodeCounts
  let layout : ArrayLayout := ⟨nodeList, offsets, []⟩
  localNodes.foldl
    (fun acc r => acc.bind fun a => a.addLocalRange r.1 r.2)
    (some layout)

/-! ### Lemmas about the layout embedding -/

/-- A scan fold whose accumulator never matches returns its initial value. -/
theorem foldl_scan_eq_init (P : Nat → Prop) [DecidablePred P] :
    ∀ (is : List Nat) (init : Option Nat), (∀ i ∈ is, ¬ P i) →
      is.foldl (fun acc i => if P i then some i else acc) init = init := by
  intro is
  induction is with
  | nil => intro init _; rfl
  | cons i rest ih =>
      intro init h
      rw [List.foldl_cons, if_neg (h i (List.mem_cons_self i rest))]
      exact ih init fun k hk => h k (List.mem_cons_of_mem i hk)

/-- A scan fold started at the unique matching index stays there. -/
theorem foldl_scan_stable (P : Nat → Prop) [DecidablePred P] (j : Nat) :
    ∀ (is : List Nat), (∀ i ∈ is, P i → i = j) →
      is.foldl (fun acc i => if P i then some i else acc) (some j) = some j := by
  intro is
  induction is with
  | nil => intro _; rfl
  | cons i rest ih =>
      intro h
      rw [List.foldl_cons]
      by_cases hi : P i
      · rw [if_pos hi, h i (List.mem_cons_self i rest) hi]
        exact ih fun k hk => h k (List.mem_cons_of_mem i hk)
      · rw [if_neg hi]
        exact ih fun k hk => h k (List.mem_cons_of_mem i hk)

/-- A scan fold over a list containing a unique matching index returns it. -/
theorem foldl_scan_unique (P : Nat → Prop) [DecidablePred P] (j : Nat) :
    ∀ (is : List Nat), (∀ i ∈ is, P i → i = j) → j ∈ is → P j →
      is.foldl (fun acc i => if P i then some i else acc) none = some j := by
  intro is
  induction is with
  | nil => intro _ hj _; cases hj
  | cons i rest ih =>
      intro huniq hj hPj
      rw [List.foldl_cons]
      by_cases hi : P i
      · rw [if_pos hi, huniq i (List.mem_cons_self i rest) hi]
        exact foldl_scan_stable P j rest fun k hk => huniq k (List.mem_cons_of_mem i hk)
      · rw [if_neg hi]
        have hij : i ≠ j := fun e => hi (e ▸ hPj)
        have hjrest : j ∈ rest := by
          cases List.mem_cons.mp hj with
          | inl e => exact absurd e.symm hij
          | inr hr => exact hr
        exact ih (fun k hk => huniq k (List.mem_cons_of_mem i hk)) hjrest hPj

/-- An absent global node index has no local index. -/
theorem global2local_not_mem (nodeList : List Nat) (g : Nat) (hg : g ∉ nodeList) :
    global2local nodeList g = none := by
  unfold global2local
  refine foldl_scan_eq_init _ _ _ fun i hi => ?_
  have hlen : i < nodeList.length := List.mem_range.mp hi
  rw [List.getD_eq_getElem _ _ hlen]
  exact fun e => hg (e ▸ List.getElem_mem hlen)

/-- In a duplicate-free node list, the local index of a listed node is its
position. -/
theorem global2local_nodup (nodeList : List Nat) (hnd : nodeList.Nodup)
    (j : Nat) (hj : j < nodeList.length) :
    global2local nodeList (nodeList.getD j 0) = some j := by
  unfold global2local
  refine foldl_scan_unique _ j _ (fun i hi hPi => ?_) (List.mem_range.mpr hj) rfl
  have hlen : i < nodeList.length := List.mem_range.mp hi
  have he : nodeList[i] = nodeList[j] := by
    rwa [List.getD_eq_getElem _ _ hlen, List.getD_eq_getElem _ _ hj] at hPi
  exact (List.Nodup.getElem_inj_iff hnd).mp he

theorem exclusiveScan_length (counts : List Nat) :
    (exclusiveScan counts).length = counts.length + 1 := by
  simp [exclusiveScan]

/-- Entries of the exclusive scan are partial sums of the counts. -/
theorem exclusiveScan_getD (counts : List Nat) (i : Nat) (h : i ≤ counts.length) :
    (exclusiveScan counts).getD i 0 = (counts.take i).sum := by
  rw [exclusiveScan, List.getD_eq_getElem?_getD, List.getElem?_map,
    List.getElem?_range (Nat.lt_succ_of_le h)]
  simp [List.sum_eq_foldl]

/-- The `addLocalRange` method only touches the local ranges field. -/
theorem addLocalRange_preserves (a b : ArrayLayout) (lo hi : Nat)
    (h : a.addLocalRange lo hi = some b) :
    b.nodeList = a.nodeList ∧ b.offsets = a.offsets := by
  unfold ArrayLayout.addLocalRange at h
  cases hl : global2local a.nodeList lo with
  | none => rw [hl] at h; cases h
  | some li =>
      rw [hl] at h
      cases h
      exact ⟨rfl, rfl⟩

theorem foldl_addLocalRange_none (rs : IndexRanges) :
    rs.foldl (fun acc r => acc.bind fun x => ArrayLayout.addLocalRange x r.1 r.2)
      none = none := by
  induction rs with
  | nil => rfl
  | cons r rest ih => simpa using ih

/-- Folding `addLocalRange` over the ranges leaves node list and offsets
unchanged. -/
theorem foldl_addLocalRange_preserves :
    ∀ (rs : IndexRanges) (b a : ArrayLayout),
    rs.foldl (fun acc r => acc.bind fun x => ArrayLayout.addLocalRange x r.1 r.2)
      (some b) = some a →
    a.nodeList = b.nodeList ∧ a.offsets = b.offsets := by
  intro rs
  induction rs with
  | nil => intro b a h; cases h; exact ⟨rfl, rfl⟩
  | cons r rest ih =>
      intro b a h
      rw [List.foldl_cons] at h
      cases hstep : (some b).bind fun x => ArrayLayout.addLocalRange x r.1 r.2 with
      | none =>
          rw [hstep, foldl_addLocalRange_none] at h
          cases h
      | some c =>
          rw [hstep] at h
          have hc := addLocalRange_preserves b c r.1 r.2 (by simpa using hstep)
          have ha := ih c a h
          exact ⟨ha.1.trans hc.1, ha.2.trans hc.2⟩

/-- Any layout returned by `computeLayout` carries the sorted (not
deduplicated) node list and the exclusive scan of the gathered counts. -/
theorem computeLayout_fields (localNodes : IndexRanges) (haloNodes : List Nat)
    (globalNodeCounts : List Nat) (a : ArrayLayout)
    (h : computeLayout localNodes haloNodes globalNodeCounts = some a) :
    a.nodeList = (haloNodes ++ flattenRanges localNodes).insertionSort (· ≤ ·) ∧
    a.offsets = exclusiveScan (a.nodeList.map fun g => globalNodeCounts.getD g 0) := by
  unfold computeLayout at h
  have := foldl_addLocalRange_preserves localNodes _ a h
  exact ⟨this.1, by rw [this.2, this.1]⟩

/-- A scan fold with a matching element somewhere returns some index. -/
theorem foldl_scan_isSome_init (P : Nat → Prop) [DecidablePred P] :
    ∀ (is : List Nat) (init : Option Nat), init.isSome →
      (is.foldl (fun acc i => if P i then some i else acc) init).isSome := by
  intro is
  induction is with
  | nil => intro init h; exact h
  | cons i rest ih =>
      intro init h
      rw [List.foldl_cons]
      by_cases hi : P i
      · rw [if_pos hi]; exact ih _ rfl
      · rw [if_neg hi]; exact ih _ h

theorem foldl_scan_isSome (P : Nat → Prop) [DecidablePred P] :
    ∀ (is : List Nat) (init : Option Nat) (j : Nat), j ∈ is → P j →
      (is.foldl (fun acc i => if P i then some i else acc) init).isSome := by
  intro is
  induction is with
  | nil => intro _ _ hj _; cases hj
  | cons i rest ih =>
      intro init j hj hPj
      rw [List.foldl_cons]
      by_cases hi : P i
      · rw [if_pos hi]; exact foldl_scan_isSome_init P rest _ rfl
      · rw [if_neg hi]
        have hij : i ≠ j := fun e => hi (e ▸ hPj)
        cases List.mem_cons.mp hj with
        | inl e => exact absurd e.symm hij
        | inr hr => exact ih init j hr hPj

/-- A listed global node index has some local index. -/
theorem global2local_mem (nodeList : List Nat) (g : Nat) (hg : g ∈ nodeList) :
    (global2local nodeList g).isSome := by
  obtain ⟨j, hj, he⟩ := List.mem_iff_getElem.mp hg
  unfold global2local
  refine foldl_scan_isSome _ _ none j (List.mem_range.mpr hj) ?_
  rw [List.getD_eq_getElem _ _ hj]
  exact he

/-! ### Claim theorems for the layout -/

/-- Claim C4, counterexample: `computeLayout` does not deduplicate.  With the
single assigned node range `[0, 1)` and the halo node list `[0]`, node `0`
appears in both inputs and the resulting node list is `[0, 0]`, which
contains a duplicate. -/
theorem computeLayout_duplicate_cex :
    ((computeLayout [(0, 1)] [0] [5]).map fun a => a.nodeList) = some [0, 0] ∧
      ¬ ([0, 0] : List Nat).Nodup := by
  exact ⟨by decide, by decide⟩

/-- Claim C4 (amended): the node list of a layout returned by `computeLayout`
is the ascending sort of the concatenation of the local node indices and the
halo node indices, without deduplication; whenever the two inputs are
duplicate-free and disjoint (the intended usage, local and halo nodes being
distinct by construction), the node list is sorted ascending, free of
duplicates, and contains exactly the union of the inputs. -/
theorem computeLayout_nodeList_sorted (localNodes : IndexRanges)
    (haloNodes counts : List Nat) (a : ArrayLayout)
    (h : computeLayout localNodes haloNodes counts = some a)
    (hh : haloNodes.Nodup) (hl : (flattenRanges localNodes).Nodup)
    (hdisj : ∀ g ∈ haloNodes, g ∉ flattenRanges localNodes) :
    a.nodeList.Sorted (· ≤ ·) ∧ a.nodeList.Nodup ∧
      ∀ g, g ∈ a.nodeList ↔ (g ∈ haloNodes ∨ g ∈ flattenRanges localNodes) := by
  obtain ⟨hnl, -⟩ := computeLayout_fields localNodes haloNodes counts a h
  have hperm := List.perm_insertionSort (α := Nat) (· ≤ ·)
    (haloNodes ++ flattenRanges localNodes)
  constructor
  · rw [hnl]; exact List.sorted_insertionSort _ _
  constructor
  · rw [hnl]
    exact hperm.nodup_iff.mpr (List.Nodup.append hh hl hdisj)
  · intro g
    rw [hnl, hperm.mem_iff, List.mem_append]

/-- Witness for the amended claim C4 at a concrete input with disjoint local
and halo nodes. -/
theorem computeLayout_nodeList_sorted_witness :
    ([0, 1, 2, 5] : List Nat).Sorted (· ≤ ·) ∧ ([0, 1, 2, 5] : List Nat).Nodup ∧
      ∀ g, g ∈ ([0, 1, 2, 5] : List Nat) ↔
        (g ∈ ([0, 5] : List Nat) ∨ g ∈ flattenRanges [(1, 3)]) := by
  have h : computeLayout [(1, 3)] [0, 5] [10, 20, 30, 40, 50, 60] =
      some ⟨[0, 1, 2, 5], [0, 10, 30, 60, 120], [(10, 60)]⟩ := rfl
  have := computeLayout_nodeList_sorted [(1, 3)] [0, 5] [10, 20, 30, 40, 50, 60]
    _ h (by decide) (by decide) (by decide)
  exact this

/-- Claim C5: for a layout produced by `computeLayout` (node list free of
duplicates, as when local and halo inputs are disjoint), the offsets are the
exclusive prefix sum of the per-node counts: the total size equals the sum of
the counts of all listed nodes, and for nodes adjacent in the sorted node
list, the position of the next node is the position of the previous one plus
its count. -/
theorem computeLayout_offsets_scan (localNodes : IndexRanges)
    (haloNodes counts : List Nat) (a : ArrayLayout)
    (h : computeLayout localNodes haloNodes counts = some a)
    (hnd : a.nodeList.Nodup) :
    a.totalSize = (a.nodeList.map fun g => counts.getD g 0).sum ∧
      ∀ i, i + 1 < a.nodeList.length →
        ∃ p c, a.nodePosition (a.nodeList.getD i 0) = some p ∧
          a.nodeCount (a.nodeList.getD i 0) = some c ∧
          a.nodePosition (a.nodeList.getD (i + 1) 0) = some (p + c) := by
  obtain ⟨-, hoff⟩ := computeLayout_fields localNodes haloNodes counts a h
  set cs : List Nat := a.nodeList.map fun g => counts.getD g 0 with hcs
  have hlen : cs.length = a.nodeList.length := by simp [hcs]
  constructor
  · rw [ArrayLayout.totalSize, hoff, ← hlen,
      exclusiveScan_getD cs cs.length le_rfl, List.take_length]
  · intro i hi1
    have hi : i < a.nodeList.length := Nat.lt_of_succ_lt hi1
    have hics : i < cs.length := hlen ▸ hi
    have hpos : a.nodePosition (a.nodeList.getD i 0) = some ((cs.take i).sum) := by
      rw [ArrayLayout.nodePosition, global2local_nodup a.nodeList hnd i hi,
        Option.map_some', hoff, exclusiveScan_getD cs i (Nat.le_of_lt hics)]
    have hsum : (cs.take (i + 1)).sum = (cs.take i).sum + cs[i] :=
      List.sum_take_succ cs i hics
    refine ⟨(cs.take i).sum, cs[i], hpos, ?_, ?_⟩
    · rw [ArrayLayout.nodeCount, global2local_nodup a.nodeList hnd i hi,
        Option.map_some', hoff, exclusiveScan_getD cs (i + 1) hics,
        exclusiveScan_getD cs i (Nat.le_of_lt hics), hsum]
      simp
    · rw [ArrayLayout.nodePosition, global2local_nodup a.nodeList hnd (i + 1) hi1,
        Option.map_some', hoff, exclusiveScan_getD cs (i + 1) hics, hsum]

/-- Witness for claim C5 at a concrete layout with four listed nodes. -/
theorem computeLayout_offsets_scan_witness :
    (⟨[0, 1, 2, 5], [0, 10, 30, 60, 120], [(10, 60)]⟩ : ArrayLayout).totalSize =
        (([0, 1, 2, 5] : List Nat).map fun g =>
          ([10, 20, 30, 40, 50, 60] : List Nat).getD g 0).sum ∧
      ∃ p c, (⟨[0, 1, 2, 5], [0, 10, 30, 60, 120], [(10, 60)]⟩ :
          ArrayLayout).nodePosition 1 = some p ∧
        (⟨[0, 1, 2, 5], [0, 10, 30, 60, 120], [(10, 60)]⟩ :
          ArrayLayout).nodeCount 1 = some c ∧
        (⟨[0, 1, 2, 5], [0, 10, 30, 60, 120], [(10, 60)]⟩ :
          ArrayLayout).nodePosition 2 = some (p + c) := by
  have h : computeLayout [(1, 3)] [0, 5] [10, 20, 30, 40, 50, 60] =
      some ⟨[0, 1, 2, 5], [0, 10, 30, 60, 120], [(10, 60)]⟩ := rfl
  have := computeLayout_offsets_scan [(1, 3)] [0, 5] [10, 20, 30, 40, 50, 60]
    _ h (by decide)
  exact ⟨this.1, this.2 1 (by decide)⟩

/-- Claim C10: the accessors of an `ArrayLayout` are defined exactly on the
node indices present in the node list given at construction: for an absent
index the internal map lookup fails (`std::out_of_range`, modelled `none`)
in `nodePosition`, `nodeCount` and `addLocalRange`, while for a present
index all three succeed. -/
theorem arrayLayout_accessor_domain (a : ArrayLayout) (g : Nat) :
    (g ∉ a.nodeList → a.nodePosition g = none ∧ a.nodeCount g = none ∧
      ∀ u, a.addLocalRange g u = none) ∧
    (g ∈ a.nodeList → (a.nodePosition g).isSome ∧ (a.nodeCount g).isSome ∧
      ∀ u, (a.addLocalRange g u).isSome) := by
  constructor
  · intro hg
    have h := global2local_not_mem a.nodeList g hg
    exact ⟨by rw [ArrayLayout.nodePosition, h]; rfl,
      by rw [ArrayLayout.nodeCount, h]; rfl,
      fun u => by rw [ArrayLayout.addLocalRange, h]; rfl⟩
  · intro hg
    have h := global2local_mem a.nodeList g hg
    obtain ⟨li, hli⟩ := Option.isSome_iff_exists.mp h
    exact ⟨by rw [ArrayLayout.nodePosition, hli]; rfl,
      by rw [ArrayLayout.nodeCount, hli]; rfl,
      fun u => by rw [ArrayLayout.addLocalRange, hli]; rfl⟩

/-- Witness for claim C10: node `3` is absent from a concrete layout and its
accessors fail, node `5` is present and they succeed. -/
theorem arrayLayout_accessor_domain_witness :
    (⟨[0, 1, 2, 5], [0, 10, 30, 60, 120], []⟩ : ArrayLayout).nodePosition 3 =
        none ∧
      ((⟨[0, 1, 2, 5], [0, 10, 30, 60, 120], []⟩ :
        ArrayLayout).nodePosition 5).isSome := by
  refine ⟨((arrayLayout_accessor_domain _ 3).1 (by decide)).1,
    ((arrayLayout_accessor_domain _ 5).2 (by decide)).1⟩

/-! ## Focus-count exchange (`countFocusParticles`)

Embeds the peer-side counting step of the focus-count exchange: for each
requested node `[requestLeaves[i], requestLeaves[i+1])`, the local leaf range
is located with two `std::lower_bound` calls into the local focus-tree leaves
and the per-leaf counts over that range are accumulated. -/

/-- Particle counts answered for a received request-key sequence, one count
per requested node, embedding the loop body of `countFocusParticles`. -/
def countFocusParticles (numNodes : Nat) (leaves counts requestLeaves : List Nat) :
    List Nat :=
  (List.range numNodes).map fun i =>
    let startKey := requestLeaves.getD i 0
    let endKey := requestLeaves.getD (i + 1) 0
    let startIdx := lowerBound leaves startKey
    let endIdx := lowerBound leaves endKey
    (((counts.drop startIdx).take (endIdx - startIdx)).sum)

/-- On a strictly sorted list, `lowerBound` finds the exact position of a
listed element. -/
theorem lowerBound_getElem (l : List Nat) (hs : l.Sorted (· < ·)) :
    ∀ (k : Nat) (hk : k < l.length), lowerBound l (l[k]) = k := by
  induction l with
  | nil => intro k hk; cases hk
  | cons a rest ih =>
      intro k hk
      have hhead : ∀ b ∈ rest, a < b := (List.sorted_cons.mp hs).1
      cases k with
      | zero => simp [lowerBound]
      | succ k =>
          have hkr : k < rest.length := Nat.lt_of_succ_lt_succ hk
          have hlt : a < (a :: rest)[k + 1] := by
            exact hhead _ (List.getElem_mem hkr)
          rw [lowerBound, if_pos hlt]
          have := ih (List.sorted_cons.mp hs).2 k hkr
          simpa using this

/-- The sum of a contiguous slice of counts equals the interval sum of the
indexed entries. -/
theorem sum_slice_eq_sum_Ico (c : List Nat) (s e : Nat) (he : e ≤ c.length) :
    ((c.drop s).take (e - s)).sum = ∑ j ∈ Finset.Ico s e, c.getD j 0 := by
  rcases Nat.le_total e s with hle | hle
  · rw [Nat.sub_eq_zero_of_le hle, List.take_zero, List.sum_nil,
      Finset.Ico_eq_empty (by omega), Finset.sum_empty]
  · obtain ⟨d, rfl⟩ := Nat.exists_eq_add_of_le hle
    induction d with
    | zero => simp
    | succ d ihd =>
        have hd : s + d ≤ c.length := by omega
        have hdrop : d < (c.drop s).length := by
          rw [List.length_drop]; omega
        have hstep : s + d < c.length := by omega
        have ih2 := ihd hd (by omega)
        rw [show s + d - s = d by omega] at ih2
        rw [show s + (d + 1) - s = d + 1 by omega, List.sum_take_succ _ d hdrop,
          show s + (d + 1) = (s + d) + 1 by omega,
          Finset.sum_Ico_succ_top (by omega)]
        rw [ih2, List.getElem_drop, List.getD_eq_getElem _ _ hstep]

/-- Claim C6: when every requested key occurs among the local focus-tree leaf
boundaries, `countFocusParticles` answers, for each requested node, the sum
of the local per-leaf counts of exactly those leaves whose span is contained
in the requested span. -/
theorem countFocusParticles_correct (numNodes : Nat)
    (leaves counts requestLeaves : List Nat)
    (hsort : leaves.Sorted (· < ·))
    (hlen : counts.length + 1 = leaves.length)
    (hmem : ∀ i ≤ numNodes, requestLeaves.getD i 0 ∈ leaves) :
    ∀ i < numNodes,
      (countFocusParticles numNodes leaves counts requestLeaves).getD i 0 =
        ∑ j ∈ Finset.range counts.length,
          if requestLeaves.getD i 0 ≤ leaves.getD j 0 ∧
              leaves.getD (j + 1) 0 ≤ requestLeaves.getD (i + 1) 0
          then counts.getD j 0 else 0 := by
  intro i hi
  obtain ⟨s, hsl, hse⟩ := List.mem_iff_getElem.mp (hmem i (Nat.le_of_lt hi))
  obtain ⟨e, hel, hee⟩ := List.mem_iff_getElem.mp (hmem (i + 1) hi)
  have hmono := List.Sorted.get_strictMono hsort
  have hmono2 : ∀ (p q : Nat) (hp : p < leaves.length) (hq : q < leaves.length),
      p < q → leaves[p] < leaves[q] := by
    intro p q hp hq hpq
    have := @hmono ⟨p, hp⟩ ⟨q, hq⟩ hpq
    simpa using this
  have hLHS : (countFocusParticles numNodes leaves counts requestLeaves).getD i 0 =
      ((counts.drop s).take (e - s)).sum := by
    rw [countFocusParticles, List.getD_eq_getElem?_getD, List.getElem?_map,
      List.getElem?_range hi]
    simp only [Option.map_some', Option.getD_some]
    rw [← hse, ← hee, lowerBound_getElem leaves hsort s hsl,
      lowerBound_getElem leaves hsort e hel]
  rw [hLHS, sum_slice_eq_sum_Ico counts s e (by omega), ← Finset.sum_filter]
  have hseteq : Finset.Ico s e = (Finset.range counts.length).filter
      (fun j => requestLeaves.getD i 0 ≤ leaves.getD j 0 ∧
        leaves.getD (j + 1) 0 ≤ requestLeaves.getD (i + 1) 0) := by
    ext j
    simp only [Finset.mem_Ico, Finset.mem_filter, Finset.mem_range]
    constructor
    · intro hj
      obtain ⟨hsj, hje⟩ := hj
      have hje2 : j < counts.length := by omega
      have hjl : j < leaves.length := by omega
      have hj1 : j + 1 < leaves.length := by omega
      refine ⟨hje2, ?_, ?_⟩
      · rw [← hse, List.getD_eq_getElem _ _ hjl]
        rcases Nat.eq_or_lt_of_le hsj with heq | hlt
        · exact le_of_eq (by subst heq; rfl)
        · exact le_of_lt (hmono2 s j hsl hjl hlt)
      · rw [← hee, List.getD_eq_getElem _ _ hj1]
        rcases Nat.eq_or_lt_of_le (show j + 1 ≤ e by omega) with heq | hlt
        · exact le_of_eq (by subst heq; rfl)
        · exact le_of_lt (hmono2 (j + 1) e hj1 hel hlt)
    · intro hj
      obtain ⟨hje2, hsj, hje⟩ := hj
      have hjl : j < leaves.length := by omega
      have hj1 : j + 1 < leaves.length := by omega
      constructor
      · by_contra hc
        have hjs : j < s := by omega
        have := hmono2 j s hjl hsl hjs
        rw [← hse, List.getD_eq_getElem _ _ hjl] at hsj
        omega
      · by_contra hc
        have hej : e < j + 1 := by omega
        have := hmono2 e (j + 1) hel hj1 hej
        rw [← hee, List.getD_eq_getElem _ _ hj1] at hje
        omega
  rw [hseteq]

/-- Witness for claim C6 on the spanning-tree counting scenario of the unit
tests: a four-leaf local tree, two requested nodes covering leaves pairwise. -/
theorem countFocusParticles_correct_witness :
    (countFocusParticles 2 [0, 8, 16, 24, 32] [3, 4, 5, 6] [0, 16, 32]).getD 0 0 =
        ∑ j ∈ Finset.range 4,
          if ([0, 16, 32] : List Nat).getD 0 0 ≤ ([0, 8, 16, 24, 32] : List Nat).getD j 0 ∧
              ([0, 8, 16, 24, 32] : List Nat).getD (j + 1) 0 ≤ ([0, 16, 32] : List Nat).getD 1 0
          then ([3, 4, 5, 6] : List Nat).getD j 0 else 0 := by
  exact countFocusParticles_correct 2 [0, 8, 16, 24, 32] [3, 4, 5, 6] [0, 16, 32]
    (by decide) (by decide) (by decide) 0 (by decide)

/-! ## Cornerstone rebalancing (`rebalanceDecision`, `rebalanceTree`)

The implementation header of the tree builder is not part of the source
snapshot (only its unit tests are), so the operations are modelled from the
specification, section 4.3, and validated against the expected op vectors of
the unit tests `rebalanceDecision`, `rebalanceDecisionSingleRoot`,
`rebalanceInsufficentResolution` and `rebalanceTree`. -/

/-- Modelled from the spec: the sibling-detection helper of the missing tree
builder header.  For leaf `i` of the cornerstone tree it returns the leaf's
subdivision level and, when the eight siblings of the leaf lie next to each
other in the tree (checked by comparing the key span of the eight leaves
starting at the first sibling against the parent node range), the leaf's
child-octant index within its parent; `none` plays the role of the `-1`
sentinel. -/
def siblingAndLevel (L : Nat) (t : List Nat) (i : Nat) : Option Nat × Nat :=
  let thisNode := t.getD i 0
  let range := t.getD (i + 1) 0 - thisNode
  let level := treeLevel L range
  if level = 0 then (none, 0)
  else
    let sibIdx := octalDigit L thisNode level
    if t.getD (i - sibIdx + 8) 0 = t.getD (i - sibIdx) 0 + nodeRange L (level - 1)
    then (some sibIdx, level) else (none, level)

/-- Modelled from the spec: the per-leaf opcode of `rebalanceDecision`
(section 4.3): emit `0` to fuse a leaf into its parent when the eight
siblings are present and together hold at most `bucketSize` particles (the
first sibling keeps opcode `1` and later writes the parent key), emit `8` to
split a leaf whose count exceeds `bucketSize` unless it is already at the
maximum subdivision level, and emit `1` otherwise. -/
def calculateNodeOp (L : Nat) (t counts : List Nat) (bucketSize : Nat) (i : Nat) :
    Nat :=
  match siblingAndLevel L t i with
  | (some sibIdx, level) =>
      if 0 < sibIdx ∧ ((counts.drop (i - sibIdx)).take 8).sum ≤ bucketSize then 0
      else if bucketSize < counts.getD i 0 ∧ level < L then 8
      else 1
  | (none, level) =>
      if bucketSize < counts.getD i 0 ∧ level < L then 8
      else 1

/-- Modelled from the spec: `rebalanceDecision` (section 4.3) emits one
opcode per leaf and reports convergence exactly when every opcode is `1`. -/
def rebalanceDecision (L : Nat) (t counts : List Nat) (bucketSize : Nat) :
    List Nat × Bool :=
  let ops := (List.range (t.length - 1)).map (calculateNodeOp L t counts bucketSize)
  (ops, ops.all (· = 1))

/-- Modelled from the spec: keys contributed by one leaf under its rebalance
opcode: `1` keeps the start key, `8` writes the eight child start keys, `0`
(a fused-away sibling) contributes nothing.  The opcode equals the number of
contributed keys, so concatenation realises the exclusive-scan placement of
`rebalanceTree`. -/
def nodeOpEmit (t ops : List Nat) (i : Nat) : List Nat :=
  let op := ops.getD i 0
  if op = 1 then [t.getD i 0]
  else if op = 8 then
    (List.range 8).map fun j => t.getD i 0 + j * ((t.getD (i + 1) 0 - t.getD i 0) / 8)
  else []

/-- Modelled from the spec: `rebalanceTree` (section 4.3) builds the next
cornerstone tree by decoding each opcode and closes it with the previous
sentinel (`newTree.back() = tree.back()`). -/
def rebalanceTree (t ops : List Nat) : List Nat :=
  ((List.range (t.length - 1)).flatMap (nodeOpEmit t ops)) ++
    [t.getD (t.length - 1) 0]

/-- The model reproduces the expected op vector of the repository unit test
`CornerstoneOctree.rebalanceDecision` (maximum level 2 stands in for the
10- and 21-level key types; the tree below is `divide().divide(0)`). -/
theorem rebalanceDecision_matches_unit_test :
    rebalanceDecision 2 [0, 1, 2, 3, 4, 5, 6, 7, 8, 16, 24, 32, 40, 48, 56, 64]
        [1, 1, 1, 0, 0, 0, 0, 0, 2, 3, 4, 5, 6, 7, 8] 4 =
      ([1, 0, 0, 0, 0, 0, 0, 0, 1, 1, 1, 8, 8, 8, 8], false) := by decide

/-- The model reproduces the expected op vector of the repository unit test
`CornerstoneOctree.rebalanceDecisionSingleRoot`. -/
theorem rebalanceDecision_matches_single_root_test :
    rebalanceDecision 2 [0, 64] [1] 4 = ([1], true) := by decide

/-- The model reproduces the repository unit test `CornerstoneOctree.rebalance`:
fusing the first eight siblings and splitting two other leaves yields the
reference tree `divide().divide(2).divide(7)`. -/
theorem rebalanceTree_matches_unit_test :
    rebalanceTree [0, 1, 2, 3, 4, 5, 6, 7, 8, 16, 24, 32, 40, 48, 56, 64]
        [1, 0, 0, 0, 0, 0, 0, 0, 1, 8, 1, 1, 1, 1, 8, 0] =
      [0, 8, 16, 17, 18, 19, 20, 21, 22, 23, 24, 32, 40, 48, 56, 57, 58,
        59, 60, 61, 62, 63, 64] := by decide

/-- A sibling index reported by `siblingAndLevel` is a child-octant index
below eight. -/
theorem siblingAndLevel_fst_lt_eight (L : Nat) (t : List Nat) (i s : Nat)
    (h : (siblingAndLevel L t i).1 = some s) : s < 8 := by
  unfold siblingAndLevel at h
  by_cases h0 : treeLevel L (t.getD (i + 1) 0 - t.getD i 0) = 0
  · rw [if_pos h0] at h; cases h
  · rw [if_neg h0] at h
    by_cases hsib : t.getD (i - octalDigit L (t.getD i 0)
        (treeLevel L (t.getD (i + 1) 0 - t.getD i 0)) + 8) 0 =
        t.getD (i - octalDigit L (t.getD i 0)
          (treeLevel L (t.getD (i + 1) 0 - t.getD i 0))) 0 +
        nodeRange L (treeLevel L (t.getD (i + 1) 0 - t.getD i 0) - 1)
    · rw [if_pos hsib] at h
      have : s = octalDigit L (t.getD i 0)
          (treeLevel L (t.getD (i + 1) 0 - t.getD i 0)) := by
        cases h; rfl
      rw [this, octalDigit]
      exact Nat.mod_lt _ (by omega)
    · rw [if_neg hsib] at h; cases h

/-- Claim C2, counterexample: leaves can still be fused even when every
oversized leaf is at the maximum subdivision level.  At maximum level 1 with
the full level-1 tree, all counts zero and bucket size 1, no count exceeds
the bucket size (so the oversized-at-max-level premise holds vacuously), yet
the decision fuses the sibling group and does not report convergence. -/
theorem rebalanceDecision_merge_cex :
    (∀ c ∈ ([0, 0, 0, 0, 0, 0, 0, 0] : List Nat), c ≤ 1) ∧
      rebalanceDecision 1 [0, 1, 2, 3, 4, 5, 6, 7, 8] [0, 0, 0, 0, 0, 0, 0, 0] 1 =
        ([1, 0, 0, 0, 0, 0, 0, 0], false) := by
  exact ⟨by decide, by decide⟩

/-- The level reported for a single-key leaf is never below the maximum. -/
theorem siblingAndLevel_snd_span_one (L : Nat) (t : List Nat) (i : Nat)
    (hrange : t.getD (i + 1) 0 - t.getD i 0 = 1) :
    ¬ (siblingAndLevel L t i).2 < L := by
  have htl : treeLevel L 1 = L := by
    have h1 : log8 1 = 0 := rfl
    simp [treeLevel, h1]
  simp only [siblingAndLevel, hrange, htl]
  by_cases hL : L = 0
  · rw [if_pos hL]; omega
  · rw [if_neg hL]
    split
    · simp
    · simp

/-- The map over the index range of a list reproduces the list. -/
theorem map_getD_range (t : List Nat) :
    (List.range t.length).map (fun i => t.getD i 0) = t := by
  apply List.ext_getElem
  · simp
  · intro n h1 h2
    simp only [List.getElem_map, List.getElem_range, List.getD_eq_getElem?_getD]
    simp [List.getElem?_eq_getElem h2]

/-- Claim C2 (amended): when every leaf whose count exceeds `bucketSize` is
already at the maximum subdivision level (its span is a single key) and,
additionally, no complete sibling group is merge-eligible (every group of
eight adjacent siblings holds more than `bucketSize` particles in total, so
no fusion can occur either), `rebalanceDecision` emits opcode `1` for every
leaf and reports convergence, and `rebalanceTree` leaves the tree unchanged;
in particular an oversized leaf at the maximum level is never split and is
not an error. -/
theorem rebalanceDecision_resolution_exhaustion (L : Nat) (t counts : List Nat)
    (b : Nat) (hne : t ≠ [])
    (hover : ∀ i < t.length - 1, b < counts.getD i 0 →
      t.getD (i + 1) 0 - t.getD i 0 = 1)
    (hnomerge : ∀ i < t.length - 1, ∀ s < 8, (siblingAndLevel L t i).1 = some s →
      0 < s → b < ((counts.drop (i - s)).take 8).sum) :
    (rebalanceDecision L t counts b).1 = List.replicate (t.length - 1) 1 ∧
      (rebalanceDecision L t counts b).2 = true ∧
      rebalanceTree t (rebalanceDecision L t counts b).1 = t := by
  have hop : ∀ i < t.length - 1, calculateNodeOp L t counts b i = 1 := by
    intro i hi
    have hA : b < counts.getD i 0 → ¬ (siblingAndLevel L t i).2 < L := fun hcnt =>
      siblingAndLevel_snd_span_one L t i (hover i hi hcnt)
    rcases hsl : siblingAndLevel L t i with ⟨osib, level⟩
    rw [hsl] at hA
    unfold calculateNodeOp
    rw [hsl]
    cases osib with
    | none =>
        show (if b < counts.getD i 0 ∧ level < L then 8 else 1) = 1
        rw [if_neg]
        intro hc
        exact hA hc.1 hc.2
    | some s =>
        have hs8 : s < 8 := siblingAndLevel_fst_lt_eight L t i s (by rw [hsl])
        have hnm := hnomerge i hi s hs8 (by rw [hsl])
        show (if 0 < s ∧ ((counts.drop (i - s)).take 8).sum ≤ b then 0
          else if b < counts.getD i 0 ∧ level < L then 8 else 1) = 1
        rw [if_neg, if_neg]
        · intro hc
          exact hA hc.1 hc.2
        · intro hc
          exact absurd (hnm hc.1) (by omega)
  have hops : (rebalanceDecision L t counts b).1 = List.replicate (t.length - 1) 1 := by
    rw [rebalanceDecision]
    refine List.eq_replicate_iff.mpr ⟨by simp, ?_⟩
    intro x hx
    obtain ⟨i, hi, rfl⟩ := List.mem_map.mp hx
    exact hop i (List.mem_range.mp hi)
  refine ⟨hops, ?_, ?_⟩
  · have : (rebalanceDecision L t counts b).2 =
        (rebalanceDecision L t counts b).1.all (· = 1) := rfl
    rw [this, hops]
    simp [List.all_eq_true]
  · rw [hops, rebalanceTree]
    have hemit : ∀ i < t.length - 1,
        nodeOpEmit t (List.replicate (t.length - 1) 1) i = [t.getD i 0] := by
      intro i hi
      have h1 : (List.replicate (t.length - 1) (1 : Nat)).getD i 0 = 1 := by
        rw [List.getD_eq_getElem _ _ (by simpa using hi)]
        simp
      simp only [nodeOpEmit, h1]
      simp
    have hflat : (List.range (t.length - 1)).flatMap
        (nodeOpEmit t (List.replicate (t.length - 1) 1)) =
        (List.range (t.length - 1)).map (fun i => t.getD i 0) := by
      rw [List.map_eq_flatMap]
      apply List.flatMap_congr
      intro i hi
      exact hemit i (List.mem_range.mp hi)
    rw [hflat]
    have hlen : 0 < t.length := List.length_pos.mpr hne
    have hsplit : (List.range t.length).map (fun i => t.getD i 0) =
        (List.range (t.length - 1)).map (fun i => t.getD i 0) ++
          [t.getD (t.length - 1) 0] := by
      conv_lhs => rw [show t.length = (t.length - 1) + 1 by omega]
      rw [List.range_succ, List.map_append]
      rfl
    rw [← hsplit, map_getD_range]

/-- Witness for the amended claim C2 on the resolution-exhaustion scenario of
the unit tests, at maximum level 1: the first leaf is oversized at the
maximum level, all sibling-group sums exceed the bucket size, and the tree
is left unchanged with convergence reported. -/
theorem rebalanceDecision_resolution_exhaustion_witness :
    (rebalanceDecision 1 [0, 1, 2, 3, 4, 5, 6, 7, 8] [2, 1, 1, 1, 1, 1, 1, 1] 1).1 =
        List.replicate 8 1 ∧
      (rebalanceDecision 1 [0, 1, 2, 3, 4, 5, 6, 7, 8] [2, 1, 1, 1, 1, 1, 1, 1] 1).2 =
        true ∧
      rebalanceTree [0, 1, 2, 3, 4, 5, 6, 7, 8]
          (rebalanceDecision 1 [0, 1, 2, 3, 4, 5, 6, 7, 8] [2, 1, 1, 1, 1, 1, 1, 1] 1).1 =
        [0, 1, 2, 3, 4, 5, 6, 7, 8] := by
  have := rebalanceDecision_resolution_exhaustion 1 [0, 1, 2, 3, 4, 5, 6, 7, 8]
    [2, 1, 1, 1, 1, 1, 1, 1] 1 (by decide) (by decide) (by decide)
  simpa using this

/-! ## Focused-tree rebalancing (`rebalanceDecisionEssential`)

The focused-tree header is also absent from the source snapshot; the
decision combining particle counts and multipole-acceptance flags is
modelled from the specification, section 4.5, and validated against all
four expected op vectors of the unit test `OctreeEssential.rebalanceDecision`. -/

/-- One-dimensional half-open range overlap `[a, b)` against `[c, d)`:
`b > c && d > a`. -/
def overlapTwoRanges (a b c d : Int) : Bool := decide (c < b) && decide (a < d)

/-- Modelled from the spec: the per-leaf opcode of the focused-tree
rebalancing (section 4.5), from the missing focused-tree header.  A complete
sibling group is fused when its total count permits it, or when the parent
MAC flag calls for a merge and no sibling overlaps the focus node range
(the fringe check); a leaf is split when its count exceeds the bucket size,
it is not at the maximum level, and either its own MAC flag is set or it
lies inside the focus.  MAC flags are indexed internal-nodes-first, leaf
`i` at `numInternalNodes + i`, and `leafParents` maps each leaf to its
parent's internal-node index. -/
def mergeCountAndMacOp (L : Nat) (cstoneTree : List Nat)
    (numInternalNodes : Nat) (leafParents leafCounts macs : List Nat)
    (firstFocusNode lastFocusNode bucketSize : Nat) (leafIdx : Nat) : Nat :=
  match siblingAndLevel L cstoneTree leafIdx with
  | (some sibIdx, level) =>
      if 0 < sibIdx ∧
          (((leafCounts.drop (leafIdx - sibIdx)).take 8).sum ≤ bucketSize ∨
            (macs.getD (leafParents.getD (leafIdx - sibIdx) 0) 0 = 0 ∧
              ¬ overlapTwoRanges (leafIdx - sibIdx) (leafIdx - sibIdx + 8)
                  firstFocusNode lastFocusNode = true)) then 0
      else if bucketSize < leafCounts.getD leafIdx 0 ∧ level < L ∧
          (macs.getD (numInternalNodes + leafIdx) 0 = 1 ∨
            (firstFocusNode ≤ leafIdx ∧ leafIdx < lastFocusNode)) then 8
      else 1
  | (none, level) =>
      if bucketSize < leafCounts.getD leafIdx 0 ∧ level < L ∧
          (macs.getD (numInternalNodes + leafIdx) 0 = 1 ∨
            (firstFocusNode ≤ leafIdx ∧ leafIdx < lastFocusNode)) then 8
      else 1

/-- Modelled from the spec: `rebalanceDecisionEssential` (section 4.5) emits
one opcode per leaf of the focused tree and reports convergence exactly when
every opcode is `1`. -/
def rebalanceDecisionEssential (L : Nat) (cstoneTree : List Nat)
    (numInternalNodes : Nat) (leafParents leafCounts macs : List Nat)
    (firstFocusNode lastFocusNode bucketSize : Nat) : List Nat × Bool :=
  let ops := (List.range (cstoneTree.length - 1)).map
    (mergeCountAndMacOp L cstoneTree numInternalNodes leafParents leafCounts
      macs firstFocusNode lastFocusNode bucketSize)
  (ops, ops.all (· = 1))

/-- The model reproduces case 1 of the unit test
`OctreeEssential.rebalanceDecision` (tree `divide().divide(0).divide(7)`,
maximum level 3 standing in for 10 and 21): counts win over the MAC and the
last sibling group is fused. -/
theorem rebalanceDecisionEssential_matches_case1 :
    rebalanceDecisionEssential 3
        [0, 8, 16, 24, 32, 40, 48, 56, 64, 128, 192, 256, 320, 384, 448,
          456, 464, 472, 480, 488, 496, 504, 512] 3
        [1, 1, 1, 1, 1, 1, 1, 1, 0, 0, 0, 0, 0, 0, 2, 2, 2, 2, 2, 2, 2, 2]
        [1, 1, 1, 2, 1, 1, 1, 1, 1, 1, 2, 1, 1, 1, 0, 0, 0, 0, 0, 0, 0, 0]
        [1, 1, 1, 0, 0, 1, 0, 1, 1, 1, 1, 1, 0, 1, 1, 1, 1, 1, 0, 0, 0, 0, 0, 0, 0]
        0 8 1 =
      ([1, 1, 1, 8, 1, 1, 1, 1, 1, 1, 8, 1, 1, 1, 1, 0, 0, 0, 0, 0, 0, 0],
        false) := by decide

/-- The model reproduces case 2 of the unit test: the MAC keeps the last
sibling group resolved, nothing is split, and the decision converges. -/
theorem rebalanceDecisionEssential_matches_case2 :
    rebalanceDecisionEssential 3
        [0, 8, 16, 24, 32, 40, 48, 56, 64, 128, 192, 256, 320, 384, 448,
          456, 464, 472, 480, 488, 496, 504, 512] 3
        [1, 1, 1, 1, 1, 1, 1, 1, 0, 0, 0, 0, 0, 0, 2, 2, 2, 2, 2, 2, 2, 2]
        [1, 1, 1, 1, 1, 1, 1, 1, 1, 1, 1, 1, 1, 1, 0, 0, 2, 1, 0, 0, 0, 0]
        [1, 1, 1, 0, 0, 1, 1, 1, 1, 1, 1, 1, 0, 1, 1, 1, 1, 0, 0, 0, 0, 0, 0, 0, 0]
        0 8 1 =
      ([1, 1, 1, 1, 1, 1, 1, 1, 1, 1, 1, 1, 1, 1, 1, 1, 1, 1, 1, 1, 1, 1],
        true) := by decide

/-- The model reproduces case 3 of the unit test: the parent MAC flag calls
for a merge outside the focus and the group is fused. -/
theorem rebalanceDecisionEssential_matches_case3 :
    rebalanceDecisionEssential 3
        [0, 8, 16, 24, 32, 40, 48, 56, 64, 128, 192, 256, 320, 384, 448,
          456, 464, 472, 480, 488, 496, 504, 512] 3
        [1, 1, 1, 1, 1, 1, 1, 1, 0, 0, 0, 0, 0, 0, 2, 2, 2, 2, 2, 2, 2, 2]
        [1, 1, 1, 1, 1, 1, 1, 1, 1, 1, 1, 1, 1, 1, 0, 0, 2, 1, 0, 0, 0, 0]
        [1, 1, 0, 0, 0, 1, 1, 1, 1, 1, 1, 1, 0, 1, 1, 1, 1, 0, 0, 0, 0, 0, 0, 0, 0]
        0 8 1 =
      ([1, 1, 1, 1, 1, 1, 1, 1, 1, 1, 1, 1, 1, 1, 1, 0, 0, 0, 0, 0, 0, 0],
        false) := by decide

/-- The model reproduces case 4 of the unit test (tree
`divide().divide(0).divide(1)`, focus node range `[2, 10)` cutting through
both sibling groups): the group whose siblings 8 and 9 are inside the focus
is kept alive against the parent MAC merge flag. -/
theorem rebalanceDecisionEssential_matches_case4 :
    rebalanceDecisionEssential 3
        [0, 8, 16, 24, 32, 40, 48, 56, 64, 72, 80, 88, 96, 104, 112, 120,
          128, 192, 256, 320, 384, 448, 512] 3
        [1, 1, 1, 1, 1, 1, 1, 1, 2, 2, 2, 2, 2, 2, 2, 2, 0, 0, 0, 0, 0, 0]
        [1, 2, 1, 1, 1, 1, 1, 1, 1, 1, 0, 0, 1, 1, 2, 1, 2, 1, 1, 2, 1, 1]
        [1, 1, 0, 0, 1, 0, 0, 0, 0, 0, 0, 0, 0, 0, 0, 0, 0, 0, 0, 1, 0, 0, 0, 0, 0]
        2 10 1 =
      ([1, 8, 1, 1, 1, 1, 1, 1, 1, 1, 1, 1, 1, 1, 1, 1, 8, 1, 1, 1, 1, 1],
        false) := by decide

/-- Claim C7, counterexample: a sibling group straddling the focus interval
can still be merged when the eight counts together permit it.  At maximum
level 1, with the focus node range `[0, 4)` cutting the single sibling group
(leaves 0 to 3 inside, 4 to 7 outside), all counts zero and bucket size 1,
the count-based merge fires and the non-first siblings receive opcode 0 even
though the parent MAC flag is set to keep. -/
theorem rebalanceDecisionEssential_fringe_cex :
    (rebalanceDecisionEssential 1 [0, 1, 2, 3, 4, 5, 6, 7, 8] 1
        [0, 0, 0, 0, 0, 0, 0, 0] [0, 0, 0, 0, 0, 0, 0, 0]
        [1, 1, 1, 1, 1, 1, 1, 1, 1] 0 4 1).1 =
      [1, 0, 0, 0, 0, 0, 0, 0] := by decide

/-- Claim C7 (amended): a sibling group of which at least one member lies in
the focus node range is never merged through the multipole-acceptance
criterion: whenever the eight counts together exceed the bucket size (so
counts do not permit the merge either), no leaf of such a group receives
opcode 0, whatever the MAC flags say; only the count criterion (group total
at most the bucket size) can fuse a group overlapping the focus. -/
theorem rebalanceDecisionEssential_fringe (L : Nat) (t : List Nat)
    (numInternalNodes : Nat) (leafParents leafCounts macs : List Nat)
    (firstFocusNode lastFocusNode bucketSize : Nat) (i s : Nat)
    (hi : i < t.length - 1) (hsi : s ≤ i)
    (hs : (siblingAndLevel L t i).1 = some s)
    (hcnt : bucketSize < ((leafCounts.drop (i - s)).take 8).sum)
    (hj : ∃ j, i - s ≤ j ∧ j < i - s + 8 ∧ firstFocusNode ≤ j ∧
      j < lastFocusNode) :
    (rebalanceDecisionEssential L t numInternalNodes leafParents leafCounts
        macs firstFocusNode lastFocusNode bucketSize).1.getD i 0 ≠ 0 := by
  have hgd : (rebalanceDecisionEssential L t numInternalNodes leafParents
      leafCounts macs firstFocusNode lastFocusNode bucketSize).1.getD i 0 =
      mergeCountAndMacOp L t numInternalNodes leafParents leafCounts macs
        firstFocusNode lastFocusNode bucketSize i := by
    rw [rebalanceDecisionEssential, List.getD_eq_getElem?_getD,
      List.getElem?_map, List.getElem?_range hi]
    rfl
  rw [hgd]
  rcases hsl : siblingAndLevel L t i with ⟨osib, level⟩
  rw [hsl] at hs
  subst hs
  unfold mergeCountAndMacOp
  rw [hsl]
  intro h0
  split at h0
  · rename_i sibIdx2 level2 hpair
    injection hpair with hp1 hp2
    injection hp1 with hp1
    subst hp1
    subst hp2
    split at h0
    · rename_i hcond
      obtain ⟨hpos, hor⟩ := hcond
      rcases hor with hcm | hmm2
      · omega
      · obtain ⟨hmac, hnf⟩ := hmm2
        obtain ⟨j, hj1, hj2, hj3, hj4⟩ := hj
        refine hnf ?_
        rw [overlapTwoRanges]
        have hc1 : ((firstFocusNode : Int)) < (i : Int) - (s : Int) + 8 := by
          omega
        have hc2 : (i : Int) - (s : Int) < (lastFocusNode : Int) := by
          omega
        simp [hc1, hc2]
    · split at h0
      · omega
      · omega
  · rename_i level2 hpair
    injection hpair with hp1 hp2
    cases hp1

/-- Witness for the amended claim C7: with the focus node range `[0, 4)`
cutting the single sibling group, group total count 9 above bucket size 1
and the parent MAC flag requesting a merge, leaf 1 keeps opcode 1. -/
theorem rebalanceDecisionEssential_fringe_witness :
    (rebalanceDecisionEssential 1 [0, 1, 2, 3, 4, 5, 6, 7, 8] 1
        [0, 0, 0, 0, 0, 0, 0, 0] [2, 1, 1, 1, 1, 1, 1, 1]
        [0, 0, 0, 0, 0, 0, 0, 0, 0] 0 4 1).1.getD 1 0 ≠ 0 := by
  exact rebalanceDecisionEssential_fringe 1 [0, 1, 2, 3, 4, 5, 6, 7, 8] 1
    [0, 0, 0, 0, 0, 0, 0, 0] [2, 1, 1, 1, 1, 1, 1, 1]
    [0, 0, 0, 0, 0, 0, 0, 0, 0] 0 4 1 1 1 (by decide) (by decide) (by decide)
    (by decide) ⟨0, by omega, by omega, by omega, by omega⟩

/-! ## Particle exchange (`exchangeParticles`)

The message-passing exchange is absent from the source snapshot (only its
tests are present), so its per-buffer semantics is modelled from the
specification, section 4.10: outgoing elements are gathered through the
caller-supplied ordering adjusted by the input offset, the kept-local
elements come first, the payloads received from peers are appended, and the
result is written element by element into the destination buffer starting at
the output offset.  The message transport itself is not modelled: the
received payloads are a parameter. -/

/-- Write `data` element by element into `buf` starting at position `pos`,
leaving all other positions alone. -/
def writeAt (buf : List Int) (pos : Nat) (data : List Int) : List Int :=
  match data with
  | [] => buf
  | x :: rest => writeAt (buf.set pos x) (pos + 1) rest

/-- Gather the buffer elements of the index ranges of one peer through the
ordering, positions adjusted by the input offset. -/
def gatherRanges (ranges : IndexRanges) (ordering : List Nat)
    (inputOffset : Nat) (buf : List Int) : List Int :=
  ranges.flatMap fun r => (rangeList r.1 r.2).map fun idx =>
    buf.getD (inputOffset + ordering.getD idx 0) 0

/-- Modelled from the spec: the effect of `exchangeParticles` (section 4.10)
on one scalar buffer, with the asynchronous receives abstracted into the
`received` payload list (one entry per peer, appended in arrival order):
the kept-local elements of `thisRank` are gathered through `ordering` from
positions adjusted by `inputOffset`, the received payloads follow, and the
result overwrites the buffer starting at `outputOffset`. -/
def exchangeParticles (sendList : List IndexRanges) (thisRank : Nat)
    (inputOffset outputOffset : Nat) (ordering : List Nat)
    (received : List (List Int)) (buf : List Int) : List Int :=
  let kept := gatherRanges (sendList.getD thisRank []) ordering inputOffset buf
  writeAt buf outputOffset (kept ++ received.flatten)

theorem writeAt_length : ∀ (data buf : List Int) (pos : Nat),
    (writeAt buf pos data).length = buf.length := by
  intro data
  induction data with
  | nil => intro buf pos; rfl
  | cons x rest ih =>
      intro buf pos
      rw [writeAt, ih, List.length_set]

/-- Positions outside the written window keep their previous values. -/
theorem writeAt_getD_frame : ∀ (data buf : List Int) (pos j : Nat),
    (j < pos ∨ pos + data.length ≤ j) →
    (writeAt buf pos data).getD j 0 = buf.getD j 0 := by
  intro data
  induction data with
  | nil => intro buf pos j _; rfl
  | cons x rest ih =>
      intro buf pos j hj
      rw [writeAt, ih (buf.set pos x) (pos + 1) j
        (by simp at hj; omega)]
      rw [List.getD_eq_getElem?_getD, List.getD_eq_getElem?_getD,
        List.getElem?_set_ne (by simp at hj; omega)]

/-- Positions inside the written window hold the written data. -/
theorem writeAt_getD_write : ∀ (data buf : List Int) (pos k : Nat),
    k < data.length → pos + data.length ≤ buf.length →
    (writeAt buf pos data).getD (pos + k) 0 = data.getD k 0 := by
  intro data
  induction data with
  | nil => intro buf pos k hk _; cases hk
  | cons x rest ih =>
      intro buf pos k hk hlen
      cases k with
      | zero =>
          rw [writeAt]
          rw [show pos + 0 = pos by omega]
          rw [writeAt_getD_frame rest (buf.set pos x) (pos + 1) pos
            (Or.inl (by omega))]
          rw [List.getD_eq_getElem?_getD,
            List.getElem?_set_self
              (by simp only [List.length_cons] at hlen; omega)]
          rfl
      | succ k =>
          rw [writeAt]
          rw [show pos + (k + 1) = (pos + 1) + k by omega]
          rw [ih (buf.set pos x) (pos + 1) k
            (by simp only [List.length_cons] at hk; omega)
            (by simp only [List.length_set]
                simp only [List.length_cons] at hlen
                omega)]
          rfl

/-- Claim C9: `exchangeParticles` with explicit input and output offsets
only writes the destination window `[outputOffset, outputOffset + totalAfter)`:
every position before the output offset and every position from
`outputOffset + totalAfter` to the end of the buffer keeps its prior value,
and the buffer length is unchanged; inside the window the buffer holds the
kept-local elements followed by the received payloads. -/
theorem exchangeParticles_frame (sendList : List IndexRanges) (thisRank : Nat)
    (inputOffset outputOffset : Nat) (ordering : List Nat)
    (received : List (List Int)) (buf : List Int) (totalAfter : Nat)
    (htot : totalAfter =
      (gatherRanges (sendList.getD thisRank []) ordering inputOffset buf).length +
        received.flatten.length) :
    (exchangeParticles sendList thisRank inputOffset outputOffset ordering
        received buf).length = buf.length ∧
      (∀ j, j < outputOffset ∨ outputOffset + totalAfter ≤ j →
        (exchangeParticles sendList thisRank inputOffset outputOffset ordering
            received buf).getD j 0 = buf.getD j 0) ∧
      (outputOffset + totalAfter ≤ buf.length → ∀ k < totalAfter,
        (exchangeParticles sendList thisRank inputOffset outputOffset ordering
            received buf).getD (outputOffset + k) 0 =
          (gatherRanges (sendList.getD thisRank []) ordering inputOffset buf ++
            received.flatten).getD k 0) := by
  have hlen : (gatherRanges (sendList.getD thisRank []) ordering inputOffset buf ++
      received.flatten).length = totalAfter := by
    rw [List.length_append, htot]
  refine ⟨writeAt_length _ _ _, ?_, ?_⟩
  · intro j hj
    exact writeAt_getD_frame _ buf outputOffset j (by rw [hlen]; exact hj)
  · intro hfit k hk
    exact writeAt_getD_write _ buf outputOffset k (by rw [hlen]; exact hk)
      (by rw [hlen]; exact hfit)

/-- Witness for claim C9, shaped after the offset-exchange scenario E3 of the
unit tests scaled down: buffer of length 10 with a pollution value at
position 0, input offset 1, output offset 2, four kept elements and two
received ones (`totalAfter = 6`); positions `[0, 2)` and `[8, 10)` keep
their prior values and the window holds kept-then-received data. -/
theorem exchangeParticles_frame_witness :
    (exchangeParticles [[(0, 4)]] 0 1 2 [0, 1, 2, 3] [[77, 78]]
        [99, 10, 11, 12, 13, 14, 15, 16, 17, 18]).length = 10 ∧
      (exchangeParticles [[(0, 4)]] 0 1 2 [0, 1, 2, 3] [[77, 78]]
        [99, 10, 11, 12, 13, 14, 15, 16, 17, 18]).getD 0 0 = 99 ∧
      (exchangeParticles [[(0, 4)]] 0 1 2 [0, 1, 2, 3] [[77, 78]]
        [99, 10, 11, 12, 13, 14, 15, 16, 17, 18]).getD 9 0 = 18 ∧
      (exchangeParticles [[(0, 4)]] 0 1 2 [0, 1, 2, 3] [[77, 78]]
        [99, 10, 11, 12, 13, 14, 15, 16, 17, 18]).getD 2 0 = 10 := by
  have h := exchangeParticles_frame [[(0, 4)]] 0 1 2 [0, 1, 2, 3] [[77, 78]]
    [99, 10, 11, 12, 13, 14, 15, 16, 17, 18] 6 (by decide)
  refine ⟨h.1, ?_, ?_, ?_⟩
  · exact (h.2.1 0 (Or.inl (by omega))).trans (by decide)
  · exact (h.2.1 9 (Or.inr (by omega))).trans (by decide)
  · exact ((h.2.2 (by decide) 0 (by omega)).trans (by decide))

/-! ## Per-leaf halo radii (`computeHaloRadii`)

The implementation header is absent from the source snapshot; the function
is modelled from the specification, section 4.7, with the per-leaf
aggregation pinned by the repository unit tests `computeHaloRadii` and
`computeHaloRadii_spanningTree`: both expect twice the maximum smoothing
length of the particles in each leaf (`hMaxPerNode = {4, 8, 10, 16}` for
per-leaf maxima `{2, 4, 5, 8}`).  The value type is any linearly ordered
ring, standing in for `float` and `double`. -/

/-- Modelled from the spec: `computeHaloRadii` (section 4.7) locates each
leaf's particle range with two `std::lower_bound` calls into the sorted key
array, folds the maximum smoothing length looked up through the ordering
permutation, and writes twice that maximum (the repository unit tests pin
the factor of two). -/
def computeHaloRadii {α : Type} [LinearOrderedRing α] (tree : List Nat)
    (nNodes : Nat) (codes : List Nat) (ordering : List Nat)
    (input : List α) : List α :=
  (List.range nNodes).map fun i =>
    let startIndex := lowerBound codes (tree.getD i 0)
    let endIndex := lowerBound codes (tree.getD (i + 1) 0)
    2 * (((List.range (endIndex - startIndex)).map fun k =>
      input.getD (ordering.getD (startIndex + k) 0) 0).foldl max 0)

/-- The model reproduces the repository unit test
`CornerstoneOctree.computeHaloRadii` (integer-valued smoothing lengths). -/
theorem computeHaloRadii_matches_unit_test :
    computeHaloRadii [0, 8, 16, 24, 32] 4 [0, 4, 8, 14, 20, 24, 25, 26, 31]
        [0, 1, 2, 3, 4, 5, 6, 7, 8] ([2, 1, 4, 3, 5, 8, 2, 1, 3] : List Int) =
      [4, 8, 10, 16] := by decide

/-- Claim C3, counterexample: on the unit-test input the per-leaf maxima of
the smoothing lengths are `{2, 4, 5, 8}`, but `computeHaloRadii` writes
`{4, 8, 10, 16}` (twice the maxima, per the repository's own expected
values), so the aggregate is not the maximum `h` of the leaf. -/
theorem computeHaloRadii_cex :
    computeHaloRadii [0, 8, 16, 24, 32] 4 [0, 4, 8, 14, 20, 24, 25, 26, 31]
        [0, 1, 2, 3, 4, 5, 6, 7, 8] ([2, 1, 4, 3, 5, 8, 2, 1, 3] : List Int) ≠
      [2, 4, 5, 8] := by decide

theorem lowerBound_le_length (l : List Nat) (x : Nat) :
    lowerBound l x ≤ l.length := by
  induction l with
  | nil => exact Nat.le_refl 0
  | cons a rest ih =>
      rw [lowerBound]
      by_cases h : a < x
      · rw [if_pos h]; simpa using ih
      · rw [if_neg h]; simp

/-- On a list sorted in non-decreasing order, positions strictly below the
lower bound of `x` are exactly those holding elements less than `x`. -/
theorem lowerBound_lt_iff (l : List Nat) (hs : l.Sorted (· ≤ ·)) (x : Nat) :
    ∀ p < l.length, (p < lowerBound l x ↔ l.getD p 0 < x) := by
  induction l with
  | nil => intro p hp; cases hp
  | cons a rest ih =>
      intro p hp
      have hhead : ∀ b ∈ rest, a ≤ b := (List.sorted_cons.mp hs).1
      rw [lowerBound]
      by_cases h : a < x
      · rw [if_pos h]
        cases p with
        | zero => simpa using h
        | succ p =>
            have hpr : p < rest.length := Nat.lt_of_succ_lt_succ hp
            have := ih (List.sorted_cons.mp hs).2 p hpr
            simpa using this
      · rw [if_neg h]
        cases p with
        | zero => simpa using h
        | succ p =>
            have hpr : p < rest.length := Nat.lt_of_succ_lt_succ hp
            have hge : a ≤ rest.getD p 0 := by
              rw [List.getD_eq_getElem _ _ hpr]
              exact hhead _ (List.getElem_mem hpr)
            simp only [List.getD_cons_succ]
            omega

theorem le_foldl_max {α : Type} [LinearOrder α] :
    ∀ (l : List α) (a : α), a ≤ l.foldl max a := by
  intro l
  induction l with
  | nil => intro a; exact le_rfl
  | cons y rest ih =>
      intro a
      exact le_trans (le_max_left a y) (ih (max a y))

theorem foldl_max_le_of_mem {α : Type} [LinearOrder α] :
    ∀ (l : List α) (a x : α), x ∈ l → x ≤ l.foldl max a := by
  intro l
  induction l with
  | nil => intro a x hx; cases hx
  | cons y rest ih =>
      intro a x hx
      cases List.mem_cons.mp hx with
      | inl he =>
          subst he
          exact le_trans (le_max_right a x) (le_foldl_max rest (max a x))
      | inr hr => exact ih (max a y) x hr

theorem foldl_max_eq_init_or_mem {α : Type} [LinearOrder α] :
    ∀ (l : List α) (a : α), l.foldl max a = a ∨ l.foldl max a ∈ l := by
  intro l
  induction l with
  | nil => intro a; exact Or.inl rfl
  | cons y rest ih =>
      intro a
      rcases ih (max a y) with he | hm
      · rw [List.foldl_cons, he]
        rcases max_choice a y with h1 | h1
        · exact Or.inl h1
        · exact Or.inr (by rw [h1]; exact List.mem_cons_self y rest)
      · exact Or.inr (List.mem_cons_of_mem y (by rw [List.foldl_cons]; exact hm))

/-- Claim C3 (amended): for a sorted particle-key array, `computeHaloRadii`
writes for each leaf twice the maximum smoothing length (zero for an empty
leaf) over the particles whose keys lie in the leaf's span, each smoothing
length looked up through the ordering permutation: the written value is
`2 * M` where `M` bounds every such particle's `h` and is itself either zero
or attained by a particle in the leaf. -/
theorem computeHaloRadii_twice_max {α : Type} [LinearOrderedRing α]
    (tree : List Nat) (nNodes : Nat) (codes : List Nat) (ordering : List Nat)
    (input : List α) (hsort : codes.Sorted (· ≤ ·)) :
    ∀ i < nNodes, ∃ M : α,
      (computeHaloRadii tree nNodes codes ordering input).getD i 0 = 2 * M ∧
      (∀ p < codes.length,
        tree.getD i 0 ≤ codes.getD p 0 → codes.getD p 0 < tree.getD (i + 1) 0 →
        input.getD (ordering.getD p 0) 0 ≤ M) ∧
      (M = 0 ∨ ∃ p, p < codes.length ∧
        tree.getD i 0 ≤ codes.getD p 0 ∧ codes.getD p 0 < tree.getD (i + 1) 0 ∧
        input.getD (ordering.getD p 0) 0 = M) := by
  intro i hi
  set s := lowerBound codes (tree.getD i 0) with hsdef
  set e := lowerBound codes (tree.getD (i + 1) 0) with hedef
  set lst : List α := (List.range (e - s)).map fun k =>
    input.getD (ordering.getD (s + k) 0) 0 with hlst
  refine ⟨lst.foldl max 0, ?_, ?_, ?_⟩
  · rw [computeHaloRadii, List.getD_eq_getElem?_getD, List.getElem?_map,
      List.getElem?_range hi]
    rfl
  · intro p hp h1 h2
    have hiff1 := lowerBound_lt_iff codes hsort (tree.getD i 0) p hp
    have hiff2 := lowerBound_lt_iff codes hsort (tree.getD (i + 1) 0) p hp
    have hps : s ≤ p := by
      rw [hsdef]
      by_contra hc
      have := hiff1.mp (by omega)
      omega
    have hpe : p < e := hiff2.mpr h2
    refine foldl_max_le_of_mem lst 0 _ ?_
    rw [hlst]
    refine List.mem_map.mpr ⟨p - s, List.mem_range.mpr (by omega), ?_⟩
    rw [show s + (p - s) = p by omega]
  · rcases foldl_max_eq_init_or_mem lst 0 with he | hm
    · exact Or.inl he
    · right
      rw [hlst] at hm
      obtain ⟨k, hk, hkeq⟩ := List.mem_map.mp hm
      have hke : k < e - s := List.mem_range.mp hk
      have hpe : s + k < e := by omega
      have hplen : s + k < codes.length :=
        Nat.lt_of_lt_of_le hpe (lowerBound_le_length codes _)
      have hiff1 := lowerBound_lt_iff codes hsort (tree.getD i 0) (s + k) hplen
      have hiff2 := lowerBound_lt_iff codes hsort (tree.getD (i + 1) 0) (s + k) hplen
      refine ⟨s + k, hplen, ?_, ?_, hkeq⟩
      · by_contra hc
        have := hiff1.mpr (by omega)
        omega
      · exact hiff2.mp (by omega)

/-- Witness for the amended claim C3 at leaf 2 of the unit-test input: the
written value 10 is twice the maximum smoothing length 5 of the single
particle with key 20 in the leaf span `[16, 24)`. -/
theorem computeHaloRadii_twice_max_witness :
    ∃ M : Int,
      (computeHaloRadii [0, 8, 16, 24, 32] 4 [0, 4, 8, 14, 20, 24, 25, 26, 31]
          [0, 1, 2, 3, 4, 5, 6, 7, 8]
          ([2, 1, 4, 3, 5, 8, 2, 1, 3] : List Int)).getD 2 0 = 2 * M ∧
      (∀ p < ([0, 4, 8, 14, 20, 24, 25, 26, 31] : List Nat).length,
        ([0, 8, 16, 24, 32] : List Nat).getD 2 0 ≤
            ([0, 4, 8, 14, 20, 24, 25, 26, 31] : List Nat).getD p 0 →
        ([0, 4, 8, 14, 20, 24, 25, 26, 31] : List Nat).getD p 0 <
            ([0, 8, 16, 24, 32] : List Nat).getD (2 + 1) 0 →
        (([2, 1, 4, 3, 5, 8, 2, 1, 3] : List Int)).getD
            (([0, 1, 2, 3, 4, 5, 6, 7, 8] : List Nat).getD p 0) 0 ≤ M) ∧
      (M = 0 ∨ ∃ p, p < ([0, 4, 8, 14, 20, 24, 25, 26, 31] : List Nat).length ∧
        ([0, 8, 16, 24, 32] : List Nat).getD 2 0 ≤
            ([0, 4, 8, 14, 20, 24, 25, 26, 31] : List Nat).getD p 0 ∧
        ([0, 4, 8, 14, 20, 24, 25, 26, 31] : List Nat).getD p 0 <
            ([0, 8, 16, 24, 32] : List Nat).getD (2 + 1) 0 ∧
        (([2, 1, 4, 3, 5, 8, 2, 1, 3] : List Int)).getD
            (([0, 1, 2, 3, 4, 5, 6, 7, 8] : List Nat).getD p 0) 0 = M) := by
  exact computeHaloRadii_twice_max [0, 8, 16, 24, 32] 4
    [0, 4, 8, 14, 20, 24, 25, 26, 31] [0, 1, 2, 3, 4, 5, 6, 7, 8]
    ([2, 1, 4, 3, 5, 8, 2, 1, 3] : List Int) (by decide) 2 (by decide)

/-! ## Box overlap and containment (`overlap`, `containedIn`)

The overlap header is absent from the source snapshot; the integer box, the
periodic range overlap, the node-versus-box overlap and the containment
check are modelled from the specification, section 4.2, and validated
against the unit tests of `test/unit/boxoverlap.cpp`.  Morton encoding is
the base-8 digit sum of the bit-spread coordinates; decoding compresses
every third bit back out. -/

/-- Integer coordinate box, six bounds; halo boxes may extend outside
`[0, 2^L)` to signal periodic wrap intent. -/
structure IBox where
  xmin : Int
  xmax : Int
  ymin : Int
  ymax : Int
  zmin : Int
  zmax : Int

/-- Periodic range overlap on a circle of circumference `R`: the plain
overlap of `[a, b)` and `[c, d)` or of one of them shifted by `R`. -/
def overlapRange (R a b c d : Int) : Bool :=
  overlapTwoRanges a b c d || overlapTwoRanges (a + R) (b + R) c d ||
    overlapTwoRanges a b (c + R) (d + R)

/-- Spread the low `l` bits of `x` into every third bit position (one bit
per octal digit), the per-axis half of Morton encoding. -/
def spread3 : Nat → Nat → Nat
  | 0, _ => 0
  | l + 1, x => x % 2 + 8 * spread3 l (x / 2)

/-- Modelled from the spec: `codeFromBox` at full depth (section 4.1), the
Morton key interleaving the bits of the three coordinates, `x` highest. -/
def codeFromBox (L x y z : Nat) : Nat :=
  4 * spread3 L x + 2 * spread3 L y + spread3 L z

/-- Compress every third bit of a Morton key back into a coordinate; the
shift `sh` (4, 2 or 1) selects the x, y or z axis. -/
def compress3 (sh : Nat) : Nat → Nat → Nat
  | 0, _ => 0
  | l + 1, code => code / sh % 2 + 2 * compress3 sh l (code / 8)

/-- Modelled from the spec: overlap test between the cube of an octree node
given by its key span and an integer halo box (section 4.2): the node's
per-axis coordinate ranges are recovered by decoding the start key, and each
axis is tested for periodic range overlap against the box, circumference
`2^L`. -/
def overlap (L : Nat) (codeStart codeEnd : Nat) (box : IBox) : Bool :=
  let level := treeLevel L (codeEnd - codeStart)
  let m := L - level
  let R : Int := 2 ^ L
  overlapRange R box.xmin box.xmax (compress3 4 L codeStart)
      (compress3 4 L codeStart + 2 ^ m) &&
    overlapRange R box.ymin box.ymax (compress3 2 L codeStart)
      (compress3 2 L codeStart + 2 ^ m) &&
    overlapRange R box.zmin box.zmax (compress3 1 L codeStart)
      (compress3 1 L codeStart + 2 ^ m)

/-- Modelled from the spec: `containedIn` (section 4.2): a halo box that
leaves `[0, 2^L]` (periodic wrap intent) is never contained; otherwise the
box is contained in the key range `[codeStart, codeEnd)` iff the keys of its
lowest and highest cells both are. -/
def containedIn (L : Nat) (codeStart codeEnd : Nat) (box : IBox) : Bool :=
  let maxCoord : Int := 2 ^ L
  if box.xmin < 0 || box.xmax > maxCoord || box.ymin < 0 || box.ymax > maxCoord ||
      box.zmin < 0 || box.zmax > maxCoord then false
  else
    let lowCode := codeFromBox L box.xmin.toNat box.ymin.toNat box.zmin.toNat
    let highCode := codeFromBox L (box.xmax - 1).toNat (box.ymax - 1).toNat
      (box.zmax - 1).toNat + 1
    decide (codeStart ≤ lowCode) && decide (highCode ≤ codeEnd)

/-- The model reproduces the `overlapRange` unit-test vectors of
`boxoverlap.cpp` with circumference 1024. -/
theorem overlapRange_matches_unit_test :
    overlapRange 1024 0 2 1 3 = true ∧ overlapRange 1024 0 1 1 2 = false ∧
    overlapRange 1024 0 1 2 3 = false ∧ overlapRange 1024 0 1023 1 3 = true ∧
    overlapRange 1024 0 1024 1 3 = true ∧ overlapRange 1024 0 2048 1 3 = true ∧
    overlapRange 1024 1022 1024 1023 1024 = true ∧
    overlapRange 1024 1023 1025 0 1 = true ∧
    overlapRange 1024 0 1 1023 1024 = false ∧
    overlapRange 1024 (-1) 1 1023 1024 = true ∧
    overlapRange 1024 (-1) 1 1022 1023 = false ∧
    overlapRange 1024 1023 2048 0 1 = true ∧
    overlapRange 1024 512 1024 332 820 = true := by decide

/-- The model reproduces the `haloBoxContainedIn` unit-test vectors of
`boxoverlap.cpp` (translated to maximum level 2, coordinate grid `[0, 4)`),
including the periodic cases that are never contained. -/
theorem containedIn_matches_unit_test :
    containedIn 2 0 1 ⟨0, 1, 0, 1, 0, 1⟩ = true ∧
    containedIn 2 0 1 ⟨0, 1, 0, 1, 0, 2⟩ = false ∧
    containedIn 2 0 2 ⟨0, 1, 0, 1, 0, 2⟩ = true ∧
    containedIn 2 0 3 ⟨0, 1, 0, 2, 0, 2⟩ = false ∧
    containedIn 2 0 4 ⟨0, 1, 0, 2, 0, 2⟩ = true ∧
    containedIn 2 0 7 ⟨0, 2, 0, 2, 0, 2⟩ = false ∧
    containedIn 2 0 8 ⟨0, 2, 0, 2, 0, 2⟩ = true ∧
    containedIn 2 (codeFromBox 2 0 0 3) (codeFromBox 2 0 0 3 + 1)
      ⟨0, 1, 0, 1, 3, 4⟩ = true ∧
    containedIn 2 (codeFromBox 2 0 0 3) (codeFromBox 2 0 0 3 + 1)
      ⟨0, 1, 0, 2, 3, 4⟩ = false ∧
    containedIn 2 (codeFromBox 2 0 0 3) (codeFromBox 2 0 0 3 + 3)
      ⟨0, 1, 0, 2, 3, 4⟩ = true ∧
    containedIn 2 0 1 ⟨-1, 1, 0, 1, 0, 1⟩ = false ∧
    containedIn 2 (codeFromBox 2 0 0 3) (codeFromBox 2 0 0 3 + 3)
      ⟨0, 1, 0, 1, 3, 5⟩ = false := by decide

/-- The model reproduces the node-versus-box `overlaps` unit-test vectors of
`boxoverlap.cpp` (level-2 node `[r, 2r]^3` with `r = 2^(L-2)`, at maximum
level 10 as in the 32-bit tests). -/
theorem overlap_matches_unit_test :
    overlap 10 (codeFromBox 10 256 256 256) (codeFromBox 10 256 256 256 + 8 ^ 8)
        ⟨0, 256, 0, 256, 0, 256⟩ = false ∧
    overlap 10 (codeFromBox 10 256 256 256) (codeFromBox 10 256 256 256 + 8 ^ 8)
        ⟨256, 512, 256, 512, 256, 512⟩ = true ∧
    overlap 10 (codeFromBox 10 256 256 256) (codeFromBox 10 256 256 256 + 8 ^ 8)
        ⟨511, 512, 511, 512, 511, 512⟩ = true ∧
    overlap 10 (codeFromBox 10 256 256 256) (codeFromBox 10 256 256 256 + 8 ^ 8)
        ⟨511, 513, 511, 513, 511, 513⟩ = true ∧
    overlap 10 (codeFromBox 10 256 256 256) (codeFromBox 10 256 256 256 + 8 ^ 8)
        ⟨512, 513, 511, 512, 511, 512⟩ = false ∧
    overlap 10 (codeFromBox 10 256 256 256) (codeFromBox 10 256 256 256 + 8 ^ 8)
        ⟨256, 257, 256, 257, 256, 257⟩ = true ∧
    overlap 10 (codeFromBox 10 256 256 256) (codeFromBox 10 256 256 256 + 8 ^ 8)
        ⟨255, 256, 256, 257, 256, 257⟩ = false ∧
    overlap 10 0 1 ⟨-1, 1, 0, 1, 0, 1⟩ = true ∧
    overlap 10 (codeFromBox 10 1023 0 0) (codeFromBox 10 1023 0 0 + 1)
        ⟨-1, 1, 0, 1, 0, 1⟩ = true ∧
    overlap 10 0 1 ⟨1023, 1025, 0, 1, 0, 1⟩ = true ∧
    overlap 10 (8 ^ 10 - 1) (8 ^ 10) ⟨-1, 1, -1, 1, -1, 1⟩ = true := by decide

theorem spread3_zero (l : Nat) : spread3 l 0 = 0 := by
  induction l with
  | zero => rfl
  | succ l ih => rw [spread3]; simp [ih]

theorem compress3_zero (sh l : Nat) : compress3 sh l 0 = 0 := by
  induction l with
  | zero => rfl
  | succ l ih => rw [compress3]; simp [ih]

/-- One level of the Morton encoding: the low octal digit interleaves the
low coordinate bits; the rest is the encoding of the halved coordinates. -/
theorem codeFromBox_decompose (l x y z : Nat) :
    codeFromBox (l + 1) x y z =
      (4 * (x % 2) + 2 * (y % 2) + z % 2) +
        8 * codeFromBox l (x / 2) (y / 2) (z / 2) := by
  show 4 * spread3 (l + 1) x + 2 * spread3 (l + 1) y + spread3 (l + 1) z = _
  rw [spread3, spread3, spread3, codeFromBox]
  ring

/-- Decoding the x axis undoes encoding. -/
theorem compressX_codeFromBox :
    ∀ (l x y z : Nat), x < 2 ^ l → compress3 4 l (codeFromBox l x y z) = x := by
  intro l
  induction l with
  | zero => intro x y z hx; interval_cases x; rfl
  | succ l ih =>
      intro x y z hx
      rw [codeFromBox_decompose, compress3]
      have hd : 4 * (x % 2) + 2 * (y % 2) + z % 2 < 8 := by omega
      have hdiv8 : ((4 * (x % 2) + 2 * (y % 2) + z % 2) +
          8 * codeFromBox l (x / 2) (y / 2) (z / 2)) / 8 =
          codeFromBox l (x / 2) (y / 2) (z / 2) := by omega
      have hmod : ((4 * (x % 2) + 2 * (y % 2) + z % 2) +
          8 * codeFromBox l (x / 2) (y / 2) (z / 2)) / 4 % 2 = x % 2 := by
        omega
      rw [hdiv8, hmod, ih (x / 2) (y / 2) (z / 2) (by omega)]
      omega

/-- Decoding the y axis undoes encoding. -/
theorem compressY_codeFromBox :
    ∀ (l x y z : Nat), y < 2 ^ l → compress3 2 l (codeFromBox l x y z) = y := by
  intro l
  induction l with
  | zero => intro x y z hy; interval_cases y; rfl
  | succ l ih =>
      intro x y z hy
      rw [codeFromBox_decompose, compress3]
      have hdiv8 : ((4 * (x % 2) + 2 * (y % 2) + z % 2) +
          8 * codeFromBox l (x / 2) (y / 2) (z / 2)) / 8 =
          codeFromBox l (x / 2) (y / 2) (z / 2) := by omega
      have hmod : ((4 * (x % 2) + 2 * (y % 2) + z % 2) +
          8 * codeFromBox l (x / 2) (y / 2) (z / 2)) / 2 % 2 = y % 2 := by
        omega
      rw [hdiv8, hmod, ih (x / 2) (y / 2) (z / 2) (by omega)]
      omega

/-- Decoding the z axis undoes encoding. -/
theorem compressZ_codeFromBox :
    ∀ (l x y z : Nat), z < 2 ^ l → compress3 1 l (codeFromBox l x y z) = z := by
  intro l
  induction l with
  | zero => intro x y z hz; interval_cases z; rfl
  | succ l ih =>
      intro x y z hz
      rw [codeFromBox_decompose, compress3]
      have hdiv8 : ((4 * (x % 2) + 2 * (y % 2) + z % 2) +
          8 * codeFromBox l (x / 2) (y / 2) (z / 2)) / 8 =
          codeFromBox l (x / 2) (y / 2) (z / 2) := by omega
      have hmod : ((4 * (x % 2) + 2 * (y % 2) + z % 2) +
          8 * codeFromBox l (x / 2) (y / 2) (z / 2)) / 1 % 2 = z % 2 := by
        omega
      rw [hdiv8, hmod, ih (x / 2) (y / 2) (z / 2) (by omega)]
      omega

/-- Decoding splits over a key inside a node aligned to `8^m`: the decoded
coordinate of `a + r` is the decoded node base plus the decoded offset. -/
theorem compress3_add_aligned (sh : Nat) (hsh : sh = 1 ∨ sh = 2 ∨ sh = 4) :
    ∀ (m L a r : Nat), 8 ^ m ∣ a → r < 8 ^ m →
      compress3 sh L (a + r) = compress3 sh L a + compress3 sh L r := by
  intro m
  induction m with
  | zero =>
      intro L a r _ hr
      interval_cases r
      simp [compress3_zero]
  | succ m ih =>
      intro L a r ha hr
      obtain ⟨c, hc⟩ := ha
      have ha8 : ∃ a1, a = 8 * a1 ∧ 8 ^ m ∣ a1 := by
        refine ⟨8 ^ m * c, by rw [hc, pow_succ]; ring, Dvd.intro c rfl⟩
      obtain ⟨a1, ha1, ha1d⟩ := ha8
      cases L with
      | zero => rfl
      | succ l =>
          have hr8 : r / 8 < 8 ^ m := by
            have : 8 ^ (m + 1) = 8 * 8 ^ m := by rw [pow_succ]; ring
            omega
          have hih := ih l a1 (r / 8) ha1d hr8
          rw [compress3, compress3, compress3]
          have hdiv : (a + r) / 8 = a1 + r / 8 := by omega
          have hadiv : a / 8 = a1 := by omega
          rw [hdiv, hadiv, hih]
          rcases hsh with rfl | rfl | rfl
          · omega
          · omega
          · omega

/-- The decoded coordinate of an offset below `8^m` lies below `2^m`. -/
theorem compress3_lt (sh : Nat) :
    ∀ (m L r : Nat), r < 8 ^ m → m ≤ L → compress3 sh L r < 2 ^ m := by
  intro m
  induction m with
  | zero =>
      intro L r hr _
      interval_cases r
      rw [compress3_zero]
      omega
  | succ m ih =>
      intro L r hr hm
      cases L with
      | zero => omega
      | succ l =>
          have hr8 : r / 8 < 8 ^ m := by
            have : 8 ^ (m + 1) = 8 * 8 ^ m := by rw [pow_succ]; ring
            omega
          have := ih l (r / 8) hr8 (by omega)
          rw [compress3]
          have h2 : 2 ^ (m + 1) = 2 * 2 ^ m := by rw [pow_succ]; ring
          omega

/-- Bit spreading is strictly monotone below `2^l`. -/
theorem spread3_strictMono :
    ∀ (l x y : Nat), x < y → y < 2 ^ l → spread3 l x < spread3 l y := by
  intro l
  induction l with
  | zero => intro x y hxy hy; omega
  | succ l ih =>
      intro x y hxy hy
      rw [spread3, spread3]
      rcases Nat.lt_or_ge (x / 2) (y / 2) with hdiv | hdiv
      · have := ih (x / 2) (y / 2) hdiv (by omega)
        omega
      · have hdeq : x / 2 = y / 2 := by omega
        rw [hdeq]
        omega

theorem spread3_mono (l x y : Nat) (hxy : x ≤ y) (hy : y < 2 ^ l) :
    spread3 l x ≤ spread3 l y := by
  rcases Nat.eq_or_lt_of_le hxy with rfl | hlt
  · exact le_rfl
  · exact Nat.le_of_lt (spread3_strictMono l x y hlt hy)

/-- Morton encoding is monotone in all three coordinates simultaneously. -/
theorem codeFromBox_mono (L x y z x2 y2 z2 : Nat)
    (hx : x ≤ x2) (hy : y ≤ y2) (hz : z ≤ z2)
    (hx2 : x2 < 2 ^ L) (hy2 : y2 < 2 ^ L) (hz2 : z2 < 2 ^ L) :
    codeFromBox L x y z ≤ codeFromBox L x2 y2 z2 := by
  have h1 := spread3_mono L x x2 hx hx2
  have h2 := spread3_mono L y y2 hy hy2
  have h3 := spread3_mono L z z2 hz hz2
  rw [codeFromBox, codeFromBox]
  omega

/-- The decoded coordinate of any key inside an aligned node lies in the
node's decoded coordinate range of width `2^m`. -/
theorem compress3_between (sh : Nat) (hsh : sh = 1 ∨ sh = 2 ∨ sh = 4)
    (L m a r : Nat) (hm : m ≤ L) (ha : 8 ^ m ∣ a) (hr : r < 8 ^ m) :
    compress3 sh L a ≤ compress3 sh L (a + r) ∧
      compress3 sh L (a + r) < compress3 sh L a + 2 ^ m := by
  rw [compress3_add_aligned sh hsh m L a r ha hr]
  have := compress3_lt sh m L r hr hm
  omega

/-- A range pair that already overlaps directly passes the periodic test. -/
theorem overlapRange_of_lt (R bmin bmax c d : Int)
    (h1 : c < bmax) (h2 : bmin < d) : overlapRange R bmin bmax c d = true := by
  rw [overlapRange, overlapTwoRanges]
  simp only [Bool.or_eq_true, Bool.and_eq_true, decide_eq_true_eq]
  exact Or.inl (Or.inl ⟨h1, h2⟩)

/-- Claim C8: for a valid node span `[a, a + 8^m)` (power-of-eight span
aligned to its size) and a non-empty integer halo box, containment of the
halo box in the node implies overlap of the node with the box. -/
theorem containedIn_implies_overlap (L m a : Nat) (box : IBox)
    (hm : m ≤ L) (ha : 8 ^ m ∣ a)
    (hbox : box.xmin < box.xmax ∧ box.ymin < box.ymax ∧ box.zmin < box.zmax)
    (hc : containedIn L a (a + 8 ^ m) box = true) :
    overlap L a (a + 8 ^ m) box = true := by
  obtain ⟨hbx, hby, hbz⟩ := hbox
  simp only [containedIn] at hc
  split at hc
  · cases hc
  · rename_i hguard
    simp only [Bool.or_eq_true, decide_eq_true_eq, not_or] at hguard
    obtain ⟨⟨⟨⟨⟨hx0, hx1⟩, hy0⟩, hy1⟩, hz0⟩, hz1⟩ := hguard
    rw [Bool.and_eq_true, decide_eq_true_eq, decide_eq_true_eq] at hc
    obtain ⟨hlow, hhigh⟩ := hc
    have hcast : ((2 ^ L : Nat) : Int) = (2 : Int) ^ L := by push_cast; ring
    set x0 := box.xmin.toNat with hx0d
    set y0 := box.ymin.toNat with hy0d
    set z0 := box.zmin.toNat with hz0d
    set x1 := (box.xmax - 1).toNat with hx1d
    set y1 := (box.ymax - 1).toNat with hy1d
    set z1 := (box.zmax - 1).toNat with hz1d
    have hxb : x0 ≤ x1 ∧ x1 < 2 ^ L ∧ (box.xmin : Int) = (x0 : Int) ∧
        (box.xmax : Int) = (x1 : Int) + 1 := by
      constructor; · omega
      constructor; · omega
      constructor; · omega
      · omega
    have hyb : y0 ≤ y1 ∧ y1 < 2 ^ L ∧ (box.ymin : Int) = (y0 : Int) ∧
        (box.ymax : Int) = (y1 : Int) + 1 := by
      constructor; · omega
      constructor; · omega
      constructor; · omega
      · omega
    have hzb : z0 ≤ z1 ∧ z1 < 2 ^ L ∧ (box.zmin : Int) = (z0 : Int) ∧
        (box.zmax : Int) = (z1 : Int) + 1 := by
      constructor; · omega
      constructor; · omega
      constructor; · omega
      · omega
    set K0 := codeFromBox L x0 y0 z0 with hK0
    set K1 := codeFromBox L x1 y1 z1 with hK1
    have hmono : K0 ≤ K1 := codeFromBox_mono L x0 y0 z0 x1 y1 z1
      hxb.1 hyb.1 hzb.1 hxb.2.1 hyb.2.1 hzb.2.1
    have hK0range : a ≤ K0 ∧ K0 < a + 8 ^ m := ⟨hlow, by omega⟩
    have hK1range : a ≤ K1 ∧ K1 < a + 8 ^ m := ⟨by omega, by omega⟩
    have hx0lt : x0 < 2 ^ L := by omega
    have hy0lt : y0 < 2 ^ L := by omega
    have hz0lt : z0 < 2 ^ L := by omega
    have hdec : ∀ sh, (sh = 1 ∨ sh = 2 ∨ sh = 4) → ∀ K, a ≤ K → K < a + 8 ^ m →
        compress3 sh L a ≤ compress3 sh L K ∧
          compress3 sh L K < compress3 sh L a + 2 ^ m := by
      intro sh hsh K h1 h2
      have := compress3_between sh hsh L m a (K - a) hm ha (by omega)
      rw [show a + (K - a) = K by omega] at this
      exact this
    have hdx0 := hdec 4 (by omega) K0 hK0range.1 hK0range.2
    have hdx1 := hdec 4 (by omega) K1 hK1range.1 hK1range.2
    have hdy0 := hdec 2 (by omega) K0 hK0range.1 hK0range.2
    have hdy1 := hdec 2 (by omega) K1 hK1range.1 hK1range.2
    have hdz0 := hdec 1 (by omega) K0 hK0range.1 hK0range.2
    have hdz1 := hdec 1 (by omega) K1 hK1range.1 hK1range.2
    rw [hK0, compressX_codeFromBox L x0 y0 z0 hx0lt] at hdx0
    rw [hK1, compressX_codeFromBox L x1 y1 z1 hxb.2.1] at hdx1
    rw [hK0, compressY_codeFromBox L x0 y0 z0 hy0lt] at hdy0
    rw [hK1, compressY_codeFromBox L x1 y1 z1 hyb.2.1] at hdy1
    rw [hK0, compressZ_codeFromBox L x0 y0 z0 hz0lt] at hdz0
    rw [hK1, compressZ_codeFromBox L x1 y1 z1 hzb.2.1] at hdz1
    have hspan : a + 8 ^ m - a = 8 ^ m := by omega
    have hlevel : treeLevel L (8 ^ m) = L - m := by rw [treeLevel, log8_pow]
    simp only [overlap, hspan, hlevel]
    rw [show L - (L - m) = m by omega]
    rw [Bool.and_eq_true, Bool.and_eq_true]
    have hc2m : ((2 ^ m : Nat) : Int) = (2 : Int) ^ m := by push_cast; ring
    refine ⟨⟨?_, ?_⟩, ?_⟩
    · refine overlapRange_of_lt _ _ _ _ _ ?_ ?_
      · rw [hxb.2.2.2]; omega
      · rw [hxb.2.2.1, ← hc2m]; omega
    · refine overlapRange_of_lt _ _ _ _ _ ?_ ?_
      · rw [hyb.2.2.2]; omega
      · rw [hyb.2.2.1, ← hc2m]; omega
    · refine overlapRange_of_lt _ _ _ _ _ ?_ ?_
      · rw [hzb.2.2.2]; omega
      · rw [hzb.2.2.1, ← hc2m]; omega

/-- Witness for claim C8: the level-0 node `[0, 8)` at maximum level 1
contains the full-grid halo box `[0, 2)^3` and indeed overlaps it. -/
theorem containedIn_implies_overlap_witness :
    containedIn 1 0 (0 + 8 ^ 1) ⟨0, 2, 0, 2, 0, 2⟩ = true ∧
      overlap 1 0 (0 + 8 ^ 1) ⟨0, 2, 0, 2, 0, 2⟩ = true := by
  refine ⟨by decide, ?_⟩
  exact containedIn_implies_overlap 1 1 0 ⟨0, 2, 0, 2, 0, 2⟩ (by decide)
    (by decide) (by decide) (by decide)

/-! ## Cornerstone tree invariants (claim C1)

A cornerstone tree is a sorted key sequence starting at 0 and ending at
`nodeRange(0)` in which every adjacent span is a power of eight dividing its
own start key.  This section establishes the invariant for every
tree-building operation: `rebalanceTree` driven by `rebalanceDecision`
opcodes, the fixed-point builders `computeOctree` and `updateOctree`, and
`computeSpanningTree`. -/

/-- One step of the cornerstone invariant: the keys increase and the span is
a power of eight of which the left key is a multiple. -/
def cstoneStep (L x y : Nat) : Prop :=
  x < y ∧ ∃ k, k ≤ L ∧ y - x = 8 ^ k ∧ 8 ^ k ∣ x

/-- The cornerstone-tree invariant: first key 0, last key `nodeRange(0)`,
strictly increasing, every span a power of eight aligned to its size. -/
def octreeInvariant (L : Nat) (t : List Nat) : Prop :=
  t.head? = some 0 ∧ t.getLast? = some (nodeRange L 0) ∧
    t.Chain' (cstoneStep L)

instance (L x y : Nat) : Decidable (cstoneStep L x y) :=
  decidable_of_iff
    (x < y ∧ ∃ k ∈ List.range (L + 1), y - x = 8 ^ k ∧ 8 ^ k ∣ x) (by
      unfold cstoneStep
      constructor
      · rintro ⟨h1, k, hk, h2, h3⟩
        exact ⟨h1, k, by have := List.mem_range.mp hk; omega, h2, h3⟩
      · rintro ⟨h1, k, hkL, h2, h3⟩
        exact ⟨h1, k, List.mem_range.mpr (by omega), h2, h3⟩)

instance instDecChainStep (L a : Nat) :
    ∀ l : List Nat, Decidable (List.Chain (cstoneStep L) a l)
  | [] => isTrue List.Chain.nil
  | b :: l =>
      haveI := instDecChainStep L b l
      decidable_of_iff (cstoneStep L a b ∧ List.Chain (cstoneStep L) b l)
        List.chain_cons.symm

instance instDecChainStep' (L : Nat) :
    ∀ t : List Nat, Decidable (List.Chain' (cstoneStep L) t)
  | [] => isTrue trivial
  | a :: l => decidable_of_iff (List.Chain (cstoneStep L) a l) Iff.rfl

instance (L : Nat) (t : List Nat) : Decidable (octreeInvariant L t) :=
  inferInstanceAs (Decidable (t.head? = some 0 ∧
    t.getLast? = some (nodeRange L 0) ∧ t.Chain' (cstoneStep L)))

/-- Adjacent getD entries of a chain are related while in range. -/
theorem chain_getD {R : Nat → Nat → Prop} (t : List Nat)
    (hc : t.Chain' R) (i : Nat) (hi : i + 1 < t.length) :
    R (t.getD i 0) (t.getD (i + 1) 0) := by
  have := List.chain'_iff_get.mp hc i (by omega)
  rw [List.getD_eq_getElem _ _ (by omega), List.getD_eq_getElem _ _ hi]
  simpa using this

/-- The invariant gives two or more keys. -/
theorem octreeInvariant_length (L : Nat) (t : List Nat)
    (h : octreeInvariant L t) : 2 ≤ t.length := by
  obtain ⟨h0, hN, -⟩ := h
  cases t with
  | nil => cases h0
  | cons a rest =>
      cases rest with
      | nil =>
          simp at h0 hN
          rw [h0] at hN
          have : 0 < nodeRange L 0 := Nat.pos_pow_of_pos _ (by omega)
          omega
      | cons b rest2 => simp

theorem octreeInvariant_head (L : Nat) (t : List Nat)
    (h : octreeInvariant L t) : t.getD 0 0 = 0 := by
  obtain ⟨h0, -, -⟩ := h
  cases t with
  | nil => cases h0
  | cons a rest => simpa using h0

theorem octreeInvariant_last (L : Nat) (t : List Nat)
    (h : octreeInvariant L t) : t.getD (t.length - 1) 0 = nodeRange L 0 := by
  obtain ⟨-, hN, -⟩ := h
  have hlen : 1 ≤ t.length := by
    cases t with
    | nil => cases hN
    | cons a rest => simp
  rw [List.getD_eq_getElem _ _ (by omega)]
  rw [List.getLast?_eq_getLast _ (by intro he; rw [he] at hN; cases hN)] at hN
  rw [List.getLast_eq_getElem] at hN
  exact Option.some_injective _ hN

/-- Adjacent keys of an invariant tree satisfy the step relation. -/
theorem octreeInvariant_step (L : Nat) (t : List Nat)
    (h : octreeInvariant L t) (i : Nat) (hi : i + 1 < t.length) :
    cstoneStep L (t.getD i 0) (t.getD (i + 1) 0) :=
  chain_getD t h.2.2 i hi

/-- Keys of an invariant tree increase weakly with the index. -/
theorem octreeInvariant_mono (L : Nat) (t : List Nat)
    (h : octreeInvariant L t) :
    ∀ d p, p + d < t.length → t.getD p 0 ≤ t.getD (p + d) 0 := by
  intro d
  induction d with
  | zero => intro p _; exact le_rfl
  | succ d ih =>
      intro p hp
      have h1 : t.getD p 0 ≤ t.getD (p + d) 0 := ih p (by omega)
      have h2 := (octreeInvariant_step L t h (p + d) (by omega)).1
      calc t.getD p 0 ≤ t.getD (p + d) 0 := h1
        _ ≤ t.getD (p + d + 1) 0 := Nat.le_of_lt h2
        _ = t.getD (p + (d + 1)) 0 := by rw [show p + d + 1 = p + (d + 1) by omega]

/-- Keys of an invariant tree increase strictly with the index. -/
theorem octreeInvariant_strictMono (L : Nat) (t : List Nat)
    (h : octreeInvariant L t) (p q : Nat) (hpq : p < q) (hq : q < t.length) :
    t.getD p 0 < t.getD q 0 := by
  have h1 := (octreeInvariant_step L t h p (by omega)).1
  have h2 := octreeInvariant_mono L t h (q - (p + 1)) (p + 1)
    (by rw [show p + 1 + (q - (p + 1)) = q by omega]; exact hq)
  rw [show p + 1 + (q - (p + 1)) = q by omega] at h2
  omega

/-- Telescoping: the key difference across a run of leaves is the sum of the
leaf spans. -/
theorem octreeInvariant_telescope (L : Nat) (t : List Nat)
    (h : octreeInvariant L t) :
    ∀ (c g : Nat), g + c < t.length →
      t.getD (g + c) 0 = t.getD g 0 +
        ∑ j ∈ Finset.range c, (t.getD (g + j + 1) 0 - t.getD (g + j) 0) := by
  intro c
  induction c with
  | zero => intro g _; simp
  | succ c ih =>
      intro g hg
      rw [Finset.sum_range_succ, show g + (c + 1) = g + c + 1 by omega]
      have hih := ih g (by omega)
      have hstep := (octreeInvariant_step L t h (g + c) (by omega)).1
      omega

/-- Span of the leaf at offset `j` from position `g` in a leaf key list. -/
def spanAt (t : List Nat) (g j : Nat) : Nat :=
  t.getD (g + j + 1) 0 - t.getD (g + j) 0

/-- Unfolding of a successful sibling detection: the level is the leaf's
nonzero subdivision level, the index its octal digit at that level, and the
eight leaves starting at the first sibling span exactly the parent range. -/
theorem siblingAndLevel_some_elim (L : Nat) (t : List Nat) (i d lvl : Nat)
    (h : siblingAndLevel L t i = (some d, lvl)) :
    treeLevel L (t.getD (i + 1) 0 - t.getD i 0) = lvl ∧ lvl ≠ 0 ∧
      d = octalDigit L (t.getD i 0) lvl ∧
      t.getD (i - d + 8) 0 = t.getD (i - d) 0 + nodeRange L (lvl - 1) := by
  simp only [siblingAndLevel] at h
  split at h
  · cases h
  · rename_i hne
    split at h
    · rename_i hchk
      injection h with h1 h2
      injection h1 with h1
      subst h1
      subst h2
      exact ⟨rfl, hne, rfl, hchk⟩
    · cases h

/-- Structure of a complete sibling group detected by `siblingAndLevel` on
an invariant tree: the group start is a genuine index, the eight siblings
are in range, all have the same span as leaf `i`, their keys advance by that
span, and the group start key is aligned to the parent span. -/
theorem sibling_group_structure (L : Nat) (t : List Nat)
    (hinv : octreeInvariant L t) (i d lvl : Nat) (hi : i + 1 < t.length)
    (hsl : siblingAndLevel L t i = (some d, lvl)) :
    d ≤ i ∧ d < 8 ∧ (i - d) + 8 < t.length ∧
      (∀ j ≤ 8, t.getD (i - d + j) 0 =
        t.getD (i - d) 0 + j * (t.getD (i + 1) 0 - t.getD i 0)) ∧
      (∀ j < 8, t.getD (i - d + j + 1) 0 - t.getD (i - d + j) 0 =
        t.getD (i + 1) 0 - t.getD i 0) ∧
      8 * (t.getD (i + 1) 0 - t.getD i 0) ∣ t.getD (i - d) 0 := by
  obtain ⟨hlvl, hlvl0, hd, hchk⟩ := siblingAndLevel_some_elim L t i d lvl hsl
  obtain ⟨hlt, k, hkL, hspan, hdvd⟩ := octreeInvariant_step L t hinv i hi
  have hd8 : d < 8 := siblingAndLevel_fst_lt_eight L t i d (by rw [hsl])
  set s := t.getD (i + 1) 0 - t.getD i 0 with hsdef
  set g := i - d with hgdef
  have hspos : 0 < s := by omega
  have hklt : k < L := by
    rw [hspan, treeLevel, log8_pow] at hlvl
    omega
  have hlvlk : lvl = L - k := by
    rw [hspan, treeLevel, log8_pow] at hlvl
    omega
  have hrange : nodeRange L (lvl - 1) = 8 * s := by
    rw [nodeRange, hlvlk, show L - (L - k - 1) = k + 1 by omega, hspan,
      pow_succ]
    ring
  rw [hrange] at hchk
  have hg8 : g + 8 < t.length := by
    by_contra hc
    have : t.getD (g + 8) 0 = 0 := by
      rw [List.getD_eq_getElem?_getD, List.getElem?_eq_none (by omega)]
      rfl
    omega
  -- leaf i lies inside the block of eight leaves starting at g
  have hj0 : ∃ j0 < 8, g + j0 = i := by
    by_cases hdi : d ≤ i
    · exact ⟨d, hd8, by omega⟩
    · exact ⟨i, by omega, by omega⟩
  -- per-leaf spans in the block
  have hsum : ∑ j ∈ Finset.range 8, spanAt t g j = 8 * s := by
    have htel := octreeInvariant_telescope L t hinv 8 g (by omega)
    have hconv : ∑ j ∈ Finset.range 8,
        (t.getD (g + j + 1) 0 - t.getD (g + j) 0) =
        ∑ j ∈ Finset.range 8, spanAt t g j := rfl
    rw [hconv] at htel
    omega
  have hspanpow : ∀ j < 8, ∃ kj, kj ≤ L ∧ spanAt t g j = 8 ^ kj ∧
      8 ^ kj ∣ t.getD (g + j) 0 := by
    intro j hj
    obtain ⟨-, kj, h1, h2, h3⟩ := octreeInvariant_step L t hinv (g + j) (by omega)
    exact ⟨kj, h1, h2, h3⟩
  have hspos8 : ∀ j < 8, 1 ≤ spanAt t g j := by
    intro j hj
    have := (octreeInvariant_step L t hinv (g + j) (by omega)).1
    have h2 : spanAt t g j = t.getD (g + j + 1) 0 - t.getD (g + j) 0 := rfl
    omega
  -- every span in the block is at most s
  have hle : ∀ j < 8, spanAt t g j ≤ s := by
    intro j hj
    have hmem : j ∈ Finset.range 8 := Finset.mem_range.mpr hj
    have herase := Finset.sum_erase_add (Finset.range 8) (spanAt t g) hmem
    have hcard : ((Finset.range 8).erase j).card = 7 := by
      rw [Finset.card_erase_of_mem hmem, Finset.card_range]
    have hothers : 7 • 1 ≤ ∑ r ∈ (Finset.range 8).erase j, spanAt t g r := by
      rw [← hcard]
      refine Finset.card_nsmul_le_sum _ _ _ ?_
      intro r hr
      exact hspos8 r (Finset.mem_range.mp (Finset.mem_of_mem_erase hr))
    simp only [smul_eq_mul] at hothers
    have hlt8s : spanAt t g j < 8 * s := by omega
    obtain ⟨kj, hkjL, hkj, -⟩ := hspanpow j hj
    rw [hkj] at hlt8s ⊢
    rw [hspan] at hlt8s ⊢
    have h8 : (8 : Nat) ^ kj < 8 ^ (k + 1) := by
      rw [pow_succ]
      omega
    have : kj < k + 1 := by
      by_contra hc
      have := Nat.pow_le_pow_right (show 1 ≤ 8 by omega) (show k + 1 ≤ kj by omega)
      omega
    exact Nat.pow_le_pow_right (by omega) (by omega)
  -- every span in the block is exactly s
  have heq : ∀ j < 8, spanAt t g j = s := by
    intro j hj
    have hmem : j ∈ Finset.range 8 := Finset.mem_range.mpr hj
    have herase := Finset.sum_erase_add (Finset.range 8) (spanAt t g) hmem
    have hcard : ((Finset.range 8).erase j).card = 7 := by
      rw [Finset.card_erase_of_mem hmem, Finset.card_range]
    have hothers : ∑ r ∈ (Finset.range 8).erase j, spanAt t g r ≤ 7 • s := by
      rw [← hcard]
      refine Finset.sum_le_card_nsmul _ _ _ ?_
      intro r hr
      exact hle r (Finset.mem_range.mp (Finset.mem_of_mem_erase hr))
    have := hle j hj
    simp only [smul_eq_mul] at hothers
    omega
  -- keys advance by s through the block
  have hkeys : ∀ j ≤ 8, t.getD (g + j) 0 = t.getD g 0 + j * s := by
    intro j hj
    have htel := octreeInvariant_telescope L t hinv j g (by omega)
    have hconv : ∑ r ∈ Finset.range j,
        (t.getD (g + r + 1) 0 - t.getD (g + r) 0) =
        ∑ r ∈ Finset.range j, spanAt t g r := rfl
    rw [hconv] at htel
    have hconst : ∑ r ∈ Finset.range j, spanAt t g r = j * s := by
      rw [Finset.sum_congr rfl fun r hr => heq r (by
        have := Finset.mem_range.mp hr; omega)]
      rw [Finset.sum_const, Finset.card_range]
      ring
    omega
  -- the octal digit of leaf i at its level is taken at divisor s
  have hdigit : d = t.getD i 0 / s % 8 := by
    rw [hd, octalDigit, hlvlk, show L - (L - k) = k by omega, ← hspan]
  -- d is a genuine offset
  have hdi : d ≤ i := by
    by_contra hc
    have hg0 : g = 0 := by omega
    have hi8 : i < 8 := by omega
    have hti : t.getD i 0 = i * s := by
      have := hkeys i (by omega)
      rw [hg0] at this
      simp only [Nat.zero_add] at this
      rw [octreeInvariant_head L t hinv] at this
      omega
    rw [hti, Nat.mul_div_cancel _ hspos, Nat.mod_eq_of_lt hi8] at hdigit
    omega
  -- group start alignment
  have hsg : s ∣ t.getD g 0 := by
    obtain ⟨k0, hk0L, hk0, hk0d⟩ := hspanpow 0 (by omega)
    have : (8 : Nat) ^ k0 = s := by
      have := heq 0 (by omega)
      omega
    rw [← this]
    simpa using hk0d
  have halign : 8 * s ∣ t.getD g 0 := by
    obtain ⟨q, hq⟩ := hsg
    have hti : t.getD i 0 = t.getD g 0 + d * s := by
      have := hkeys d (by omega)
      rw [show g + d = i by omega] at this
      exact this
    rw [hti, hq] at hdigit
    have hdiv : (s * q + d * s) / s = q + d := by
      rw [Nat.add_mul_div_right _ _ hspos, Nat.mul_div_cancel_left _ hspos]
    rw [hdiv] at hdigit
    have hq8 : q % 8 = 0 := by omega
    obtain ⟨q8, hq8e⟩ := Nat.dvd_of_mod_eq_zero hq8
    rw [hq, hq8e]
    exact ⟨q8, by ring⟩
  exact ⟨hdi, hd8, hg8, hkeys, heq, halign⟩

/-- Introduction rule for a successful sibling detection. -/
theorem siblingAndLevel_eq_of (L : Nat) (t : List Nat) (j lvl c : Nat)
    (h1 : treeLevel L (t.getD (j + 1) 0 - t.getD j 0) = lvl) (h2 : lvl ≠ 0)
    (h3 : octalDigit L (t.getD j 0) lvl = c)
    (h4 : t.getD (j - c + 8) 0 = t.getD (j - c) 0 + nodeRange L (lvl - 1)) :
    siblingAndLevel L t j = (some c, lvl) := by
  simp only [siblingAndLevel]
  rw [h1, if_neg h2, h3, if_pos h4]

/-- A sibling detection that fails reports either level zero or the leaf's
actual subdivision level. -/
theorem siblingAndLevel_none_elim (L : Nat) (t : List Nat) (i lvl : Nat)
    (h : siblingAndLevel L t i = (none, lvl)) :
    (treeLevel L (t.getD (i + 1) 0 - t.getD i 0) = 0 ∧ lvl = 0) ∨
      treeLevel L (t.getD (i + 1) 0 - t.getD i 0) = lvl := by
  simp only [siblingAndLevel] at h
  split at h
  · rename_i h0
    injection h with h1 h2
    exact Or.inl ⟨h0, h2.symm⟩
  · split at h
    · injection h with h1 h2
      exact Option.noConfusion h1
    · injection h with h1 h2
      exact Or.inr h2

/-- The octal digit of a key of the form `8·s·q + c·s` at the level whose
node size is `s` is `c`. -/
theorem octalDigit_of_aligned (L lvl s q c : Nat) (hs : 8 ^ (L - lvl) = s)
    (h0 : 0 < s) (hc : c < 8) :
    octalDigit L (8 * s * q + c * s) lvl = c := by
  rw [octalDigit, hs, show 8 * s * q + c * s = (8 * q + c) * s by ring,
    Nat.mul_div_cancel _ h0]
  omega

/-- A list entry is bounded by the sum of the window of eight starting at it. -/
theorem getD_le_take_sum (counts : List Nat) (g : Nat) :
    counts.getD g 0 ≤ ((counts.drop g).take 8).sum := by
  by_cases hg : g < counts.length
  · rw [List.getD_eq_getElem _ _ hg]
    have hdrop : counts.drop g = counts[g] :: counts.drop (g + 1) :=
      List.drop_eq_getElem_cons hg
    rw [hdrop]
    simp only [List.take_succ_cons, List.sum_cons]
    omega
  · rw [List.getD_eq_getElem?_getD, List.getElem?_eq_none (by omega)]
    simp

/-- A rebalance opcode is `0`, `1` or `8`. -/
theorem calculateNodeOp_mem (L : Nat) (t counts : List Nat) (b i : Nat) :
    calculateNodeOp L t counts b i = 0 ∨ calculateNodeOp L t counts b i = 1 ∨
      calculateNodeOp L t counts b i = 8 := by
  unfold calculateNodeOp
  split
  · split
    · exact Or.inl rfl
    · split
      · exact Or.inr (Or.inr rfl)
      · exact Or.inr (Or.inl rfl)
  · split
    · exact Or.inr (Or.inr rfl)
    · exact Or.inr (Or.inl rfl)

/-- Opcode `0` arises only from the merge branch. -/
theorem calculateNodeOp_eq_zero_elim (L : Nat) (t counts : List Nat) (b i : Nat)
    (h : calculateNodeOp L t counts b i = 0) :
    ∃ d lvl, siblingAndLevel L t i = (some d, lvl) ∧ 0 < d ∧
      ((counts.drop (i - d)).take 8).sum ≤ b := by
  unfold calculateNodeOp at h
  split at h
  · rename_i d lvl hsl
    split at h
    · rename_i hcond
      exact ⟨d, lvl, hsl, hcond.1, hcond.2⟩
    · split at h
      · simp at h
      · simp at h
  · split at h
    · simp at h
    · simp at h

/-- Reduction of `calculateNodeOp` once the sibling detection is known. -/
theorem calculateNodeOp_of_some (L : Nat) (t counts : List Nat) (b i d lvl : Nat)
    (h : siblingAndLevel L t i = (some d, lvl)) :
    calculateNodeOp L t counts b i =
      if 0 < d ∧ ((counts.drop (i - d)).take 8).sum ≤ b then 0
      else if b < counts.getD i 0 ∧ lvl < L then 8 else 1 := by
  unfold calculateNodeOp
  rw [h]

/-- A leaf fused by opcode `0` sits in a complete group of eight siblings:
the first sibling `g` keeps opcode `1`, the seven others get opcode `0`, and
the parent cell `[t g, t (g+8))` is itself a valid octree cell. -/
theorem merge_group (L : Nat) (t counts : List Nat) (b : Nat)
    (hinv : octreeInvariant L t) (i : Nat) (hi : i + 1 < t.length)
    (h0 : calculateNodeOp L t counts b i = 0) :
    ∃ g, g < i ∧ i < g + 8 ∧ g + 8 < t.length ∧
      calculateNodeOp L t counts b g = 1 ∧
      (∀ j, g < j → j < g + 8 → calculateNodeOp L t counts b j = 0) ∧
      cstoneStep L (t.getD g 0) (t.getD (g + 8) 0) := by
  obtain ⟨d, lvl, hsl, hdpos, hsum⟩ := calculateNodeOp_eq_zero_elim L t counts b i h0
  obtain ⟨hdi, hd8, hg8, hkeys, heqspans, halign⟩ :=
    sibling_group_structure L t hinv i d lvl hi hsl
  obtain ⟨hlvl, hlvl0, hdig, hchk⟩ := siblingAndLevel_some_elim L t i d lvl hsl
  obtain ⟨hlt, k, hkL, hspan, hdvd⟩ := octreeInvariant_step L t hinv i hi
  set s := t.getD (i + 1) 0 - t.getD i 0 with hsdef
  set g := i - d with hgdef
  have hspos : 0 < s := by omega
  have hlvl' := hlvl
  rw [hspan, treeLevel, log8_pow] at hlvl'
  have hklt : k < L := by omega
  have hs8 : 8 ^ (L - lvl) = s := by
    rw [show L - lvl = k by omega]
    exact hspan.symm
  have hsl_all : ∀ c < 8, siblingAndLevel L t (g + c) = (some c, lvl) := by
    intro c hc
    apply siblingAndLevel_eq_of
    · rw [show t.getD (g + c + 1) 0 - t.getD (g + c) 0 = s from heqspans c hc]
      exact hlvl
    · exact hlvl0
    · obtain ⟨q, hq⟩ := halign
      rw [show t.getD (g + c) 0 = 8 * s * q + c * s by
        rw [hkeys c (le_of_lt hc), hq]]
      exact octalDigit_of_aligned L lvl s q c hs8 hspos hc
    · rw [show g + c - c = g by omega]
      exact hchk
  have hcnt : counts.getD g 0 ≤ b := le_trans (getD_le_take_sum counts g) hsum
  have hop1 : calculateNodeOp L t counts b g = 1 := by
    have hslg := hsl_all 0 (by omega)
    rw [Nat.add_zero] at hslg
    rw [calculateNodeOp_of_some L t counts b g 0 lvl hslg, if_neg (by simp),
      if_neg (by intro hcon; omega)]
  have hop0 : ∀ j, g < j → j < g + 8 → calculateNodeOp L t counts b j = 0 := by
    intro j hj1 hj2
    have hslj := hsl_all (j - g) (by omega)
    rw [show g + (j - g) = j by omega] at hslj
    rw [calculateNodeOp_of_some L t counts b j (j - g) lvl hslj,
      if_pos ⟨by omega, by rw [show j - (j - g) = g by omega]; exact hsum⟩]
  have hstep : cstoneStep L (t.getD g 0) (t.getD (g + 8) 0) := by
    have hk8 := hkeys 8 le_rfl
    have h8s : 8 * s = 8 ^ (k + 1) := by
      rw [hspan, pow_succ]
      ring
    refine ⟨by omega, k + 1, by omega, by omega, ?_⟩
    rw [← h8s]
    exact halign
  exact ⟨g, by omega, by omega, hg8, hop1, hop0, hstep⟩

/-- Opcode `8` only hits a leaf below the maximum level: on an invariant
tree its span is a positive power of eight of the parent's size times eight,
so the eight children have span `8 ^ (k - 1)` with `1 ≤ k`. -/
theorem calculateNodeOp_eq_eight_span (L : Nat) (t counts : List Nat)
    (b i : Nat) (hinv : octreeInvariant L t) (hi : i + 1 < t.length)
    (h : calculateNodeOp L t counts b i = 8) :
    ∃ k, 1 ≤ k ∧ k ≤ L ∧ t.getD (i + 1) 0 - t.getD i 0 = 8 ^ k ∧
      8 ^ k ∣ t.getD i 0 := by
  obtain ⟨hlt, k, hkL, hspan, hdvd⟩ := octreeInvariant_step L t hinv i hi
  refine ⟨k, ?_, hkL, hspan, hdvd⟩
  unfold calculateNodeOp at h
  split at h
  · rename_i d lvl hsl
    obtain ⟨hlvl, hlvl0, -, -⟩ := siblingAndLevel_some_elim L t i d lvl hsl
    rw [hspan, treeLevel, log8_pow] at hlvl
    split at h
    · simp at h
    · split at h
      · rename_i hcond
        omega
      · simp at h
  · rename_i lvl hsl
    split at h
    · rename_i hcond
      rcases siblingAndLevel_none_elim L t i lvl hsl with ⟨hl0, hlvl⟩ | hlvl <;>
        rw [hspan, treeLevel, log8_pow] at * <;> omega
    · simp at h

/-- A fused-away leaf contributes no key. -/
theorem nodeOpEmit_zero (t ops : List Nat) (i : Nat) (h : ops.getD i 0 = 0) :
    nodeOpEmit t ops i = [] := by
  simp only [nodeOpEmit]
  rw [h]
  simp

/-- A kept leaf contributes its start key. -/
theorem nodeOpEmit_one (t ops : List Nat) (i : Nat) (h : ops.getD i 0 = 1) :
    nodeOpEmit t ops i = [t.getD i 0] := by
  simp only [nodeOpEmit]
  rw [h]
  simp

/-- A split leaf contributes its eight child start keys. -/
theorem nodeOpEmit_eight (t ops : List Nat) (i : Nat) (h : ops.getD i 0 = 8) :
    nodeOpEmit t ops i = (List.range 8).map fun j =>
      t.getD i 0 + j * ((t.getD (i + 1) 0 - t.getD i 0) / 8) := by
  simp only [nodeOpEmit]
  rw [h]
  simp

/-- An arithmetic progression of eight cells of size `8 ^ e` chains onto a
valid remainder starting at the end of the progression. -/
theorem children_chain_append (L e a x : Nat) (he : e ≤ L) (ha : 8 ^ e ∣ a)
    (rest : List Nat) (hx : rest.head? = some x) (hlink : x = a + 8 * 8 ^ e)
    (hrest : List.Chain' (cstoneStep L) rest) :
    List.Chain' (cstoneStep L)
      (((List.range 8).map fun j => a + j * 8 ^ e) ++ rest) := by
  have hpos : 0 < 8 ^ e := Nat.pos_pow_of_pos e (by omega)
  have hstep : ∀ u v : Nat, 8 ^ e ∣ u → v = u + 8 ^ e → cstoneStep L u v := by
    intro u v hu hv
    exact ⟨by omega, e, he, by omega, hu⟩
  have hmem : ∀ n : Nat, (8 : Nat) ^ e ∣ a + n * 8 ^ e := fun n =>
    dvd_add ha (dvd_mul_left _ _)
  rw [show List.range 8 = [0, 1, 2, 3, 4, 5, 6, 7] from by decide]
  simp only [List.map_cons, List.map_nil, List.cons_append, List.nil_append]
  rw [List.chain'_cons, List.chain'_cons, List.chain'_cons, List.chain'_cons,
    List.chain'_cons, List.chain'_cons, List.chain'_cons, List.chain'_cons']
  refine ⟨hstep _ _ (hmem 0) (by ring), hstep _ _ (hmem 1) (by ring),
    hstep _ _ (hmem 2) (by ring), hstep _ _ (hmem 3) (by ring),
    hstep _ _ (hmem 4) (by ring), hstep _ _ (hmem 5) (by ring),
    hstep _ _ (hmem 6) (by ring), ?_, hrest⟩
  intro y hy
  rw [hx] at hy
  have hxy : x = y := by simpa using hy
  exact hstep _ _ (hmem 7) (by rw [← hxy, hlink]; ring)

/-- The first key contributed by a split is the parent's start key. -/
theorem children_head (a c : Nat) (rest : List Nat) :
    (((List.range 8).map fun j => a + j * c) ++ rest).head? = some a := by
  rw [show List.range 8 = [0, 1, 2, 3, 4, 5, 6, 7] from by decide]
  simp

/-- Walking the leaves from a boundary position (the first leaf, or any leaf
that is not fused away), the keys emitted by the remaining opcodes followed
by the closing sentinel start at the current leaf's key and chain through
valid octree steps. -/
theorem rebalance_chain (L : Nat) (t counts : List Nat) (b : Nat)
    (ops : List Nat) (hinv : octreeInvariant L t)
    (hops : ∀ j, j + 1 < t.length →
      ops.getD j 0 = calculateNodeOp L t counts b j) :
    ∀ m i, i + m + 1 = t.length → (m = 0 ∨ ops.getD i 0 ≠ 0) →
      ((List.range' i m).flatMap (nodeOpEmit t ops) ++
          [t.getD (t.length - 1) 0]).head? = some (t.getD i 0) ∧
        List.Chain' (cstoneStep L)
          ((List.range' i m).flatMap (nodeOpEmit t ops) ++
            [t.getD (t.length - 1) 0]) := by
  intro m
  induction m using Nat.strong_induction_on with
  | _ m ih =>
    intro i hlen hbd
    by_cases hm0 : m = 0
    · subst hm0
      rw [List.range'_zero, List.flatMap_nil, List.nil_append]
      constructor
      · rw [show t.length - 1 = i by omega]
        rfl
      · exact List.chain'_singleton _
    · have hi1 : i + 1 < t.length := by omega
      have hopi := hops i hi1
      have hbd' : ops.getD i 0 ≠ 0 := hbd.resolve_left hm0
      have hmm : m = m - 1 + 1 := by omega
      rcases calculateNodeOp_mem L t counts b i with h0 | h1 | h8
      · rw [← hopi] at h0
        exact absurd h0 hbd'
      · -- the leaf is kept
        have hope : ops.getD i 0 = 1 := by rw [hopi]; exact h1
        rw [hmm, List.range'_succ, List.flatMap_cons, nodeOpEmit_one t ops i hope,
          List.append_assoc, List.singleton_append]
        by_cases hnext : m - 1 = 0 ∨ ops.getD (i + 1) 0 ≠ 0
        · obtain ⟨hh, hc⟩ := ih (m - 1) (by omega) (i + 1) (by omega) hnext
          refine ⟨rfl, ?_⟩
          rw [List.chain'_cons']
          refine ⟨?_, hc⟩
          intro y hy
          rw [hh] at hy
          have hyv : t.getD (i + 1) 0 = y := by simpa using hy
          rw [← hyv]
          exact octreeInvariant_step L t hinv i hi1
        · -- the next leaf is fused: the group starts right here
          push_neg at hnext
          obtain ⟨hm1, hz1⟩ := hnext
          have hi2 : i + 1 + 1 < t.length := by omega
          have h0i1 : calculateNodeOp L t counts b (i + 1) = 0 := by
            rw [← hops (i + 1) hi2]
            exact hz1
          obtain ⟨g, hg1, hg2, hg3, hgop1, hgop0, hgstep⟩ :=
            merge_group L t counts b hinv (i + 1) hi2 h0i1
          have hgi : g = i := by
            by_contra hgne
            have := hgop0 i (by omega) (by omega)
            omega
          rw [hgi] at hg3 hgop0 hgstep
          have hbd8 : m - 8 = 0 ∨ ops.getD (i + 8) 0 ≠ 0 := by
            by_cases hN8 : i + 8 + 1 = t.length
            · left; omega
            · right
              intro hz
              have h08 : calculateNodeOp L t counts b (i + 8) = 0 := by
                rw [← hops (i + 8) (by omega)]
                exact hz
              obtain ⟨g2, hg21, hg22, -, hg2op1, -, -⟩ :=
                merge_group L t counts b hinv (i + 8) (by omega) h08
              have := hgop0 g2 (by omega) (by omega)
              omega
          obtain ⟨hh, hc⟩ := ih (m - 8) (by omega) (i + 8) (by omega) hbd8
          have hskip : (List.range' (i + 1) (m - 1)).flatMap (nodeOpEmit t ops) =
              (List.range' (i + 8) (m - 8)).flatMap (nodeOpEmit t ops) := by
            have hsplit : List.range' (i + 1) (m - 1) =
                List.range' (i + 1) 7 ++ List.range' (i + 8) (m - 8) := by
              have happ : List.range' (i + 1) (m - 8 + 7) =
                  List.range' (i + 1) 7 ++ List.range' (i + 1 + 7) (m - 8) := by
                simp
              rw [show m - 1 = m - 8 + 7 by omega, happ,
                show i + 1 + 7 = i + 8 by omega]
            rw [hsplit, List.flatMap_append]
            have hzs : (List.range' (i + 1) 7).flatMap (nodeOpEmit t ops) = [] := by
              rw [List.flatMap_eq_nil_iff]
              intro x hx
              rw [List.mem_range'_1] at hx
              apply nodeOpEmit_zero
              rw [hops x (by omega)]
              exact hgop0 x (by omega) (by omega)
            rw [hzs, List.nil_append]
          rw [hskip]
          refine ⟨rfl, ?_⟩
          rw [List.chain'_cons']
          refine ⟨?_, hc⟩
          intro y hy
          rw [hh] at hy
          have hyv : t.getD (i + 8) 0 = y := by simpa using hy
          rw [← hyv]
          exact hgstep
      · -- the leaf is split into eight children
        have hope : ops.getD i 0 = 8 := by rw [hopi]; exact h8
        obtain ⟨k, hk1, hkL, hspan, hdvd⟩ :=
          calculateNodeOp_eq_eight_span L t counts b i hinv hi1 h8
        have hpw : (8 : Nat) ^ k = 8 ^ (k - 1) * 8 := by
          conv_lhs => rw [show k = k - 1 + 1 by omega]
          rw [pow_succ]
        have hc8 : (t.getD (i + 1) 0 - t.getD i 0) / 8 = 8 ^ (k - 1) := by
          rw [hspan, hpw, Nat.mul_div_cancel _ (by omega)]
        have hbnext : m - 1 = 0 ∨ ops.getD (i + 1) 0 ≠ 0 := by
          by_cases hm1 : m - 1 = 0
          · left; exact hm1
          · right
            intro hz
            have h0i1 : calculateNodeOp L t counts b (i + 1) = 0 := by
              rw [← hops (i + 1) (by omega)]
              exact hz
            obtain ⟨g, hg1, hg2, -, hgop1, hgop0, -⟩ :=
              merge_group L t counts b hinv (i + 1) (by omega) h0i1
            by_cases hgi : g = i
            · rw [hgi] at hgop1
              omega
            · have := hgop0 i (by omega) (by omega)
              omega
        obtain ⟨hh, hc⟩ := ih (m - 1) (by omega) (i + 1) (by omega) hbnext
        rw [hmm, List.range'_succ, List.flatMap_cons,
          nodeOpEmit_eight t ops i hope]
        simp only [hc8]
        rw [List.append_assoc]
        constructor
        · exact children_head (t.getD i 0) (8 ^ (k - 1)) _
        · have hlt := (octreeInvariant_step L t hinv i hi1).1
          refine children_chain_append L (k - 1) (t.getD i 0) (t.getD (i + 1) 0)
            (by omega) (dvd_trans (pow_dvd_pow 8 (by omega)) hdvd) _ hh ?_ hc
          have h8k : (8 : Nat) * 8 ^ (k - 1) = 8 ^ k := by
            rw [hpw]
            ring
          omega

/-- Rebalancing an invariant cornerstone tree with the opcodes produced by
`rebalanceDecision` yields an invariant cornerstone tree, whatever the
counts and bucket size. -/
theorem rebalanceTree_invariant (L : Nat) (t counts : List Nat) (b : Nat)
    (hinv : octreeInvariant L t) :
    octreeInvariant L (rebalanceTree t (rebalanceDecision L t counts b).1) := by
  set ops := (rebalanceDecision L t counts b).1 with hops_def
  have hlen := octreeInvariant_length L t hinv
  have hops : ∀ j, j + 1 < t.length →
      ops.getD j 0 = calculateNodeOp L t counts b j := by
    intro j hj
    rw [hops_def]
    show ((List.range (t.length - 1)).map
        (calculateNodeOp L t counts b)).getD j 0 = _
    rw [List.getD_eq_getElem _ _ (by
      rw [List.length_map, List.length_range]; omega)]
    simp
  have hb0 : t.length - 1 = 0 ∨ ops.getD 0 0 ≠ 0 := by
    right
    rw [hops 0 (by omega)]
    intro h0
    obtain ⟨d, lvl, hsl, hdpos, -⟩ := calculateNodeOp_eq_zero_elim L t counts b 0 h0
    obtain ⟨hdi, -, -, -, -, -⟩ :=
      sibling_group_structure L t hinv 0 d lvl (by omega) hsl
    omega
  obtain ⟨hh, hc⟩ := rebalance_chain L t counts b ops hinv hops
    (t.length - 1) 0 (by omega) hb0
  have hform : rebalanceTree t ops =
      (List.range' 0 (t.length - 1)).flatMap (nodeOpEmit t ops) ++
        [t.getD (t.length - 1) 0] := by
    rw [rebalanceTree, List.range_eq_range']
  refine ⟨?_, ?_, ?_⟩
  · rw [hform]
    rw [octreeInvariant_head L t hinv] at hh
    exact hh
  · rw [hform, List.getLast?_concat, octreeInvariant_last L t hinv]
  · rw [hform]
    exact hc

/-- Modelled from the spec: `computeNodeCounts` (section 4.3) counts, for
each leaf `[t i, t (i+1))`, the particles of the sorted key list falling in
that range by binary search, capping each count at `maxCount`. -/
def computeNodeCounts (t keys : List Nat) (maxCount : Nat) : List Nat :=
  (List.range (t.length - 1)).map fun i =>
    min maxCount (lowerBound keys (t.getD (i + 1) 0) - lowerBound keys (t.getD i 0))

/-- Modelled from the spec: the count/decide/rebalance fixed-point iteration
of `computeOctree` and `updateOctree` (section 4.3), with the iteration cap
the spec prescribes made an explicit fuel argument. -/
def updateOctreeRec (L : Nat) (keys : List Nat) (b mc : Nat) :
    Nat → List Nat → List Nat
  | 0, t => t
  | fuel + 1, t =>
      let counts := computeNodeCounts t keys mc
      let dec := rebalanceDecision L t counts b
      if dec.2 then t else updateOctreeRec L keys b mc fuel (rebalanceTree t dec.1)

/-- Modelled from the spec: `updateOctree` (section 4.3) reruns the fixed
point warm-started from the existing tree; the effectively unbounded count
cap of the implementation is modelled by `keys.length`, which no count can
exceed. -/
def updateOctree (L : Nat) (keys : List Nat) (b fuel : Nat) (t : List Nat) :
    List Nat :=
  updateOctreeRec L keys b keys.length fuel t

/-- Modelled from the spec: `computeOctree` (section 4.3) runs the fixed
point from the root-only tree `{0, nodeRange(0)}` and returns the tree with
its leaf counts. -/
def computeOctree (L : Nat) (keys : List Nat) (b fuel : Nat) :
    List Nat × List Nat :=
  let tree := updateOctree L keys b fuel [0, nodeRange L 0]
  (tree, computeNodeCounts tree keys keys.length)

/-- Modelled from the spec: the largest power-of-eight node size, up to the
whole domain, that starts a valid node at `a` fitting inside `[a, b)` —
the node placed by `computeSpanningTree` at each greedy step (section 4.3:
any coarser node would not be a valid aligned cell). -/
def maxNodeSpan (L a b : Nat) : Nat :=
  (List.range (L + 1)).foldl
    (fun acc k => if 8 ^ k ∣ a ∧ a + 8 ^ k ≤ b then max acc (8 ^ k) else acc) 0

/-- Modelled from the spec: fill the gap `[a, b)` with the coarsest valid
nodes, emitting each node's start key; the fuel `b - a` is an upper bound on
the number of nodes since every node has positive size. -/
def fillGap (L : Nat) : Nat → Nat → Nat → List Nat
  | 0, _, _ => []
  | fuel + 1, a, b =>
      if a < b then a :: fillGap L fuel (a + maxNodeSpan L a b) b else []

/-- Modelled from the spec: `computeSpanningTree` (section 4.3) concatenates
the greedy decomposition of every gap between consecutive cornerstones and
closes the tree with the last cornerstone. -/
def computeSpanningTree (L : Nat) (cs : List Nat) : List Nat :=
  ((cs.zip (cs.drop 1)).flatMap fun p => fillGap L (p.2 - p.1) p.1 p.2) ++
    [cs.getD (cs.length - 1) 0]

theorem fillGap_zero (L a b : Nat) : fillGap L 0 a b = [] := rfl

theorem fillGap_succ (L fuel a b : Nat) :
    fillGap L (fuel + 1) a b =
      if a < b then a :: fillGap L fuel (a + maxNodeSpan L a b) b else [] := rfl

theorem updateOctreeRec_zero (L : Nat) (keys : List Nat) (b mc : Nat)
    (t : List Nat) : updateOctreeRec L keys b mc 0 t = t := rfl

theorem updateOctreeRec_succ (L : Nat) (keys : List Nat) (b mc fuel : Nat)
    (t : List Nat) :
    updateOctreeRec L keys b mc (fuel + 1) t =
      if (rebalanceDecision L t (computeNodeCounts t keys mc) b).2 then t
      else updateOctreeRec L keys b mc fuel
        (rebalanceTree t (rebalanceDecision L t (computeNodeCounts t keys mc) b).1) :=
  rfl

/-- The model reproduces the repository unit test
`CornerstoneOctree.countTreeNodes` (tree `divide().divide(0)` for 10-level
keys, 14 particles, uncapped counts). -/
theorem computeNodeCounts_matches_unit_test :
    computeNodeCounts
      [0, 16777216, 33554432, 50331648, 67108864, 83886080, 100663296,
        117440512, 134217728, 268435456, 402653184, 536870912, 671088640,
        805306368, 939524096, 1073741824]
      [16777216, 16777216, 16777226, 16777316, 33554431, 33554433, 536870912,
        536870914, 671088640, 671089640, 671090640, 805306358, 805306368,
        805306369] 4294967295 =
      [0, 5, 1, 0, 0, 0, 0, 0, 0, 0, 0, 2, 4, 2, 0] := by decide

/-- The model reproduces the first case of the repository unit test
`CornerstoneOctree.computeSpanningTree`: the root-only cornerstone list is
already spanning (10-level keys). -/
theorem computeSpanningTree_matches_root_test :
    computeSpanningTree 10 [0, 1073741824] = [0, 1073741824] := by decide

/-- The model reproduces the second case of the repository unit test
`CornerstoneOctree.computeSpanningTree`: cornerstones
`{0, pad(1, 3), nodeRange(0)}` span a valid tree of 9 keys (10-level keys:
`pad(1, 3) = 8^9`). -/
theorem computeSpanningTree_matches_pad_test :
    (computeSpanningTree 10 [0, 134217728, 1073741824]).length = 9 ∧
      octreeInvariant 10 (computeSpanningTree 10 [0, 134217728, 1073741824]) := by
  decide

set_option maxRecDepth 8000 in
/-- The model reproduces the third case of the repository unit test
`CornerstoneOctree.computeSpanningTree`: cornerstones
`{0, 1, nodeRange(0) - 1, nodeRange(0)}` span a valid tree of 135 keys for
10-level (32-bit) keys. -/
theorem computeSpanningTree_matches_full_depth_test :
    (computeSpanningTree 10 [0, 1, 1073741823, 1073741824]).length = 135 ∧
      octreeInvariant 10 (computeSpanningTree 10 [0, 1, 1073741823, 1073741824]) := by
  decide

set_option maxRecDepth 20000 in
/-- The model reproduces the 64-bit branch of the third case of the
repository unit test `CornerstoneOctree.computeSpanningTree`: with 21-level
keys the same cornerstones span a valid tree of 289 keys. -/
theorem computeSpanningTree_matches_full_depth_test64 :
    (computeSpanningTree 21
        [0, 1, 9223372036854775807, 9223372036854775808]).length = 289 ∧
      octreeInvariant 21 (computeSpanningTree 21
        [0, 1, 9223372036854775807, 9223372036854775808]) := by
  decide

/-- The last entry of a list through `getD`. -/
theorem getD_last_eq (l : List Nat) (x : Nat) (h : l.getLast? = some x) :
    l.getD (l.length - 1) 0 = x := by
  have hlen : 1 ≤ l.length := by
    cases l with
    | nil => cases h
    | cons a rest => simp
  rw [List.getD_eq_getElem _ _ (by omega)]
  rw [List.getLast?_eq_getLast _ (by intro he; rw [he] at h; cases h)] at h
  rw [List.getLast_eq_getElem] at h
  exact Option.some_injective _ h

/-- Build a chain from adjacent `getD` relations. -/
theorem chain'_of_getD {R : Nat → Nat → Prop} (l : List Nat)
    (h : ∀ i, i + 1 < l.length → R (l.getD i 0) (l.getD (i + 1) 0)) :
    l.Chain' R := by
  rw [List.chain'_iff_get]
  intro i hi
  have := h i (by omega)
  rw [List.getD_eq_getElem _ _ (by omega),
    List.getD_eq_getElem _ _ (by omega)] at this
  simpa [List.get_eq_getElem] using this

/-- The greedy node placed by `computeSpanningTree` in a nonempty gap is a
valid aligned power-of-eight cell that fits in the gap. -/
theorem foldl_span_good (L a b : Nat) : ∀ l : List Nat, (∀ k ∈ l, k ≤ L) →
    ∀ acc, acc ∣ a ∧ a + acc ≤ b ∧ (∃ k, k ≤ L ∧ acc = 8 ^ k) →
      (l.foldl (fun acc k =>
          if 8 ^ k ∣ a ∧ a + 8 ^ k ≤ b then max acc (8 ^ k) else acc) acc) ∣ a ∧
        a + l.foldl (fun acc k =>
          if 8 ^ k ∣ a ∧ a + 8 ^ k ≤ b then max acc (8 ^ k) else acc) acc ≤ b ∧
        ∃ k, k ≤ L ∧ l.foldl (fun acc k =>
          if 8 ^ k ∣ a ∧ a + 8 ^ k ≤ b then max acc (8 ^ k) else acc) acc =
            8 ^ k := by
  intro l
  induction l with
  | nil => intro _ acc hacc; exact hacc
  | cons c rest ih =>
      intro hl acc hacc
      rw [List.foldl_cons]
      by_cases hc : 8 ^ c ∣ a ∧ a + 8 ^ c ≤ b
      · rw [if_pos hc]
        refine ih (fun k hk => hl k (List.mem_cons_of_mem c hk)) _ ?_
        rcases max_choice acc (8 ^ c) with hmx | hmx <;> rw [hmx]
        · exact hacc
        · exact ⟨hc.1, hc.2, c, hl c (List.mem_cons_self c rest), rfl⟩
      · rw [if_neg hc]
        exact ih (fun k hk => hl k (List.mem_cons_of_mem c hk)) _ hacc

/-- In a nonempty gap the greedy span divides the gap start, fits inside the
gap, and is a power of eight not exceeding the whole domain. -/
theorem maxNodeSpan_good (L a b : Nat) (hab : a < b) :
    maxNodeSpan L a b ∣ a ∧ a + maxNodeSpan L a b ≤ b ∧
      ∃ k, k ≤ L ∧ maxNodeSpan L a b = 8 ^ k := by
  have hr : List.range (L + 1) = 0 :: List.range' 1 L := by
    rw [List.range_eq_range']
    simpa using List.range'_succ 0 L 1
  have hcond : (8 : Nat) ^ 0 ∣ a ∧ a + 8 ^ 0 ≤ b :=
    ⟨by simp, by simp only [pow_zero]; omega⟩
  unfold maxNodeSpan
  rw [hr, List.foldl_cons, if_pos hcond]
  refine foldl_span_good L a b (List.range' 1 L)
    (fun k hk => by rw [List.mem_range'_1] at hk; omega) _ ?_
  rw [Nat.zero_max]
  exact ⟨hcond.1, hcond.2, 0, by omega, rfl⟩

/-- The keys emitted by `fillGap` for a nonempty gap `[a, b)` start at `a`
and chain by valid octree steps onto any valid remainder starting at `b`. -/
theorem fillGap_chain (L : Nat) : ∀ fuel a b, b - a ≤ fuel → a < b →
    ∀ rest : List Nat, rest.head? = some b →
      List.Chain' (cstoneStep L) rest →
      (fillGap L fuel a b ++ rest).head? = some a ∧
        List.Chain' (cstoneStep L) (fillGap L fuel a b ++ rest) := by
  intro fuel
  induction fuel with
  | zero => intro a b hf hab; omega
  | succ fuel ih =>
      intro a b hf hab rest hr hcr
      rw [fillGap_succ, if_pos hab]
      obtain ⟨hdvd, hfit, k, hkL, hpow⟩ := maxNodeSpan_good L a b hab
      set s := maxNodeSpan L a b with hsdef
      have hspos : 0 < s := by
        rw [hpow]
        exact Nat.pos_pow_of_pos _ (by omega)
      have hstep : cstoneStep L a (a + s) :=
        ⟨by omega, k, hkL, by omega, hpow ▸ hdvd⟩
      by_cases hend : a + s < b
      · obtain ⟨hh, hc⟩ := ih (a + s) b (by omega) hend rest hr hcr
        rw [List.cons_append]
        refine ⟨rfl, ?_⟩
        rw [List.chain'_cons']
        refine ⟨?_, hc⟩
        intro y hy
        rw [hh] at hy
        have hyv : a + s = y := by simpa using hy
        rw [← hyv]
        exact hstep
      · have hab2 : a + s = b := by omega
        have hnil : fillGap L fuel (a + s) b = [] := by
          cases fuel with
          | zero => rfl
          | succ f => rw [fillGap_succ, if_neg (by omega)]
        rw [hnil, List.cons_append, List.nil_append]
        refine ⟨rfl, ?_⟩
        rw [List.chain'_cons']
        refine ⟨?_, hcr⟩
        intro y hy
        rw [hr] at hy
        have hyv : b = y := by simpa using hy
        rw [← hyv, ← hab2]
        exact hstep

/-- Gluing the greedy gap decompositions of a strictly increasing
cornerstone sequence produces a list that starts at the first cornerstone
and chains by valid octree steps down to the closing sentinel. -/
theorem spanning_glue_chain (L e : Nat) : ∀ (cs : List Nat) (a : Nat),
    List.Chain (· < ·) a cs → (a :: cs).getLast? = some e →
    ((((a :: cs).zip ((a :: cs).drop 1)).flatMap
        fun p => fillGap L (p.2 - p.1) p.1 p.2) ++ [e]).head? = some a ∧
      List.Chain' (cstoneStep L)
        ((((a :: cs).zip ((a :: cs).drop 1)).flatMap
          fun p => fillGap L (p.2 - p.1) p.1 p.2) ++ [e]) := by
  intro cs
  induction cs with
  | nil =>
      intro a hch hlast
      have hae : a = e := by simpa using hlast
      subst hae
      exact ⟨rfl, List.chain'_singleton _⟩
  | cons c cs ih =>
      intro a hch hlast
      obtain ⟨hac, hch2⟩ := List.chain_cons.mp hch
      obtain ⟨hh, hc⟩ := ih c hch2 (by
        rw [← List.getLast?_cons_cons]
        exact hlast)
      have hzip : ((a :: c :: cs).zip ((a :: c :: cs).drop 1)) =
          (a, c) :: ((c :: cs).zip ((c :: cs).drop 1)) := rfl
      rw [hzip, List.flatMap_cons, List.append_assoc]
      exact fillGap_chain L (c - a) a c le_rfl hac _ hh hc

/-- `computeSpanningTree` on a strictly increasing cornerstone sequence
running from `0` to the whole domain produces an invariant cornerstone
tree. -/
theorem computeSpanningTree_invariant (L : Nat) (cs : List Nat)
    (hcs : ∀ i, i < cs.length - 1 → cs.getD i 0 < cs.getD (i + 1) 0)
    (h0 : cs.head? = some 0) (hN : cs.getLast? = some (nodeRange L 0)) :
    octreeInvariant L (computeSpanningTree L cs) := by
  have hchain : List.Chain' (· < ·) cs :=
    chain'_of_getD cs fun i hi => hcs i (by omega)
  cases cs with
  | nil => cases h0
  | cons a cs2 =>
      have ha : a = 0 := by simpa using h0
      subst ha
      obtain ⟨hh, hc⟩ := spanning_glue_chain L (nodeRange L 0) cs2 0 hchain hN
      have hsent : (0 :: cs2).getD ((0 :: cs2).length - 1) 0 = nodeRange L 0 :=
        getD_last_eq _ _ hN
      refine ⟨?_, ?_, ?_⟩
      · unfold computeSpanningTree
        rw [hsent]
        exact hh
      · unfold computeSpanningTree
        rw [hsent, List.getLast?_concat]
      · unfold computeSpanningTree
        rw [hsent]
        exact hc

/-- The count/decide/rebalance fixed point preserves the octree invariant at
every iteration. -/
theorem updateOctreeRec_invariant (L : Nat) (keys : List Nat) (b mc : Nat) :
    ∀ fuel t, octreeInvariant L t →
      octreeInvariant L (updateOctreeRec L keys b mc fuel t) := by
  intro fuel
  induction fuel with
  | zero => intro t h; exact h
  | succ fuel ih =>
      intro t h
      rw [updateOctreeRec_succ]
      split
      · exact h
      · exact ih _ (rebalanceTree_invariant L t (computeNodeCounts t keys mc) b h)

/-- `updateOctree` warm-started from an invariant tree returns an invariant
tree. -/
theorem updateOctree_invariant (L : Nat) (keys : List Nat) (b fuel : Nat)
    (t : List Nat) (h : octreeInvariant L t) :
    octreeInvariant L (updateOctree L keys b fuel t) :=
  updateOctreeRec_invariant L keys b keys.length fuel t h

/-- The root-only tree `{0, nodeRange(0)}` is invariant. -/
theorem rootTree_invariant (L : Nat) : octreeInvariant L [0, nodeRange L 0] := by
  refine ⟨rfl, rfl, ?_⟩
  rw [List.chain'_cons]
  refine ⟨⟨?_, L, le_rfl, ?_, dvd_zero _⟩, List.chain'_singleton _⟩
  · show 0 < 8 ^ (L - 0)
    exact Nat.pos_pow_of_pos _ (by omega)
  · show 8 ^ (L - 0) - 0 = 8 ^ L
    simp

/-- `computeOctree` returns an invariant tree. -/
theorem computeOctree_invariant (L : Nat) (keys : List Nat) (b fuel : Nat) :
    octreeInvariant L (computeOctree L keys b fuel).1 :=
  updateOctree_invariant L keys b fuel _ (rootTree_invariant L)

/-- C1: every cornerstone tree produced by a tree-building operation
satisfies the octree invariant — `rebalanceTree` applied to an invariant
tree with the opcodes of `rebalanceDecision` (for any counts and bucket
size), `updateOctree` warm-started from an invariant tree, `computeOctree`,
and `computeSpanningTree` on a strictly increasing cornerstone sequence
from `0` to `nodeRange(0)`.  The final clause unfolds the invariant: the
first key is `0`, the last key is `nodeRange(0)`, the keys increase
strictly, and every span is a power of eight dividing its start key. -/
theorem treeBuilders_invariant (L b fuel : Nat) (t counts keys cs : List Nat)
    (hinv : octreeInvariant L t)
    (hcs : ∀ i, i < cs.length - 1 → cs.getD i 0 < cs.getD (i + 1) 0)
    (hcs0 : cs.head? = some 0)
    (hcsN : cs.getLast? = some (nodeRange L 0)) :
    octreeInvariant L (rebalanceTree t (rebalanceDecision L t counts b).1) ∧
      octreeInvariant L (updateOctree L keys b fuel t) ∧
      octreeInvariant L (computeOctree L keys b fuel).1 ∧
      octreeInvariant L (computeSpanningTree L cs) ∧
      ∀ u, octreeInvariant L u →
        u.getD 0 0 = 0 ∧ u.getD (u.length - 1) 0 = nodeRange L 0 ∧
          ∀ i, i + 1 < u.length →
            u.getD i 0 < u.getD (i + 1) 0 ∧
              ∃ k, k ≤ L ∧ u.getD (i + 1) 0 - u.getD i 0 = 8 ^ k ∧
                8 ^ k ∣ u.getD i 0 := by
  refine ⟨rebalanceTree_invariant L t counts b hinv,
    updateOctree_invariant L keys b fuel t hinv,
    computeOctree_invariant L keys b fuel,
    computeSpanningTree_invariant L cs hcs hcs0 hcsN, ?_⟩
  intro u hu
  refine ⟨octreeInvariant_head L u hu, octreeInvariant_last L u hu, ?_⟩
  intro i hi
  obtain ⟨h1, k, h2, h3, h4⟩ := octreeInvariant_step L u hu i hi
  exact ⟨h1, k, h2, h3, h4⟩

/-- Witness for C1 at maximum level 2: the full level-1 tree for
`rebalanceTree`/`updateOctree`, three particles, and the cornerstone
sequence `{0, 8, 64}` for the spanning tree. -/
theorem treeBuilders_invariant_witness :
    (octreeInvariant 2 [0, 8, 16, 24, 32, 40, 48, 56, 64] ∧
      (∀ i, i < ([0, 8, 64] : List Nat).length - 1 →
        ([0, 8, 64] : List Nat).getD i 0 < [0, 8, 64].getD (i + 1) 0) ∧
      ([0, 8, 64] : List Nat).head? = some 0 ∧
      ([0, 8, 64] : List Nat).getLast? = some (nodeRange 2 0)) ∧
    (octreeInvariant 2 (rebalanceTree [0, 8, 16, 24, 32, 40, 48, 56, 64]
        (rebalanceDecision 2 [0, 8, 16, 24, 32, 40, 48, 56, 64]
          [9, 0, 0, 0, 0, 0, 0, 0] 4).1) ∧
      octreeInvariant 2 (updateOctree 2 [3, 4, 70] 4 2
        [0, 8, 16, 24, 32, 40, 48, 56, 64]) ∧
      octreeInvariant 2 (computeOctree 2 [3, 4, 70] 4 2).1 ∧
      octreeInvariant 2 (computeSpanningTree 2 [0, 8, 64]) ∧
      ∀ u, octreeInvariant 2 u →
        u.getD 0 0 = 0 ∧ u.getD (u.length - 1) 0 = nodeRange 2 0 ∧
          ∀ i, i + 1 < u.length →
            u.getD i 0 < u.getD (i + 1) 0 ∧
              ∃ k, k ≤ 2 ∧ u.getD (i + 1) 0 - u.getD i 0 = 8 ^ k ∧
                8 ^ k ∣ u.getD i 0) :=
  ⟨⟨by decide, by decide, by decide, by decide⟩,
    treeBuilders_invariant 2 4 2 [0, 8, 16, 24, 32, 40, 48, 56, 64]
      [9, 0, 0, 0, 0, 0, 0, 0] [3, 4, 70] [0, 8, 64]
      (by decide) (by decide) (by decide) (by decide)⟩

end Cstone
